import Mathlib

/-!
Shallow embedding of `glycan_profiling/tandem/target_decoy.py`: the
target–decoy FDR estimation and q-value calibration engine.

Modelling conventions:
* Scores and numeric values are rationals (`ℚ`).  The source mixes Python
  ints and floats; every claim examined here concerns exact small-integer
  data, where float and rational arithmetic agree.
* The source is Python-2 style code (`(hi + lo) / 2` is used as a list
  index, so `/` is integer floor division; over the reachable states all
  indices are non-negative, so `Nat` division matches).
* A raised exception (`IndexError` from an empty table lookup,
  `ZeroDivisionError`, `TypeError` from an unmatched group) is modelled by
  `Option`: `none` means the Python code raises.
* NaN scores do not exist in `ℚ`; the main pipeline is the NaN-free
  fragment.  A separate `PFloat` model (at the end of the definitions)
  covers the NaN-relevant parts (`calculate_thresholds` and
  `NearestValueLookUp.__init__`).
-/

namespace TargetDecoy

/-- A scored item.  The engine reads `score` and writes `qValue`
(`spectrum_match.score` / `spectrum_match.q_value` in the source). -/
structure Item where
  score : ℚ
  qValue : ℚ
deriving DecidableEq, Repr

/-! ### Sorting helpers (models of Python `sorted`) -/

/-- Insert a rational into an ascending duplicate-free list, keeping it
ascending and duplicate-free.  Models the combination `sorted(set(...))`. -/
def insertDedup (x : ℚ) : List ℚ → List ℚ
  | [] => [x]
  | y :: ys => if x < y then x :: y :: ys else if x = y then y :: ys else y :: insertDedup x ys

/-- `sorted(set(l))` for rationals. -/
def sortDedup (l : List ℚ) : List ℚ := l.foldl (fun acc x => insertDedup x acc) []

/-- Stable insertion of a cell into a list sorted ascending by first
component (the new cell goes after existing cells with equal keys). -/
def insertCell (c : ℚ × ℚ) : List (ℚ × ℚ) → List (ℚ × ℚ)
  | [] => [c]
  | d :: ds => if c.1 < d.1 then c :: d :: ds else d :: insertCell c ds

/-- `sorted(items, key=lambda x: x[0])`: stable sort by key. -/
def sortCells (l : List (ℚ × ℚ)) : List (ℚ × ℚ) :=
  l.foldl (fun acc c => insertCell c acc) []

/-- Stable insertion of an item into a list sorted ascending by score. -/
def insertItem (a : Item) : List Item → List Item
  | [] => [a]
  | b :: bs => if a.score < b.score then a :: b :: bs else b :: insertItem a bs

/-- `sorted(series, key=lambda x: x.score)`: stable sort by score. -/
def sortItems (l : List Item) : List Item :=
  l.foldl (fun acc a => insertItem a acc) []

/-- Floor of a rational, computed on the reduced fraction (`num.ediv den`
floors because the denominator is positive). -/
def ratFloor (q : ℚ) : ℤ := q.num.ediv (q.den : ℤ)

/-- Round to the nearest integer, ties to even (the rounding used by
`np.round`). -/
def roundHalfEven (q : ℚ) : ℤ :=
  let f := ratFloor q
  if q - (f : ℚ) = 1/2 then (if f % 2 = 0 then f else f + 1)
  else ratFloor (q + 1/2)

/-- `np.round(x, 10)`: round to ten decimal places, ties to even. -/
def roundTo10 (q : ℚ) : ℚ := (roundHalfEven (q * 10^10) : ℚ) / 10^10

/-! ### `NearestValueLookUp` -/

/-- List indexing with an out-of-range default, mirroring Python indexing
on the ranges the algorithms keep valid. -/
def cellGet (l : List (ℚ × ℚ)) (i : ℕ) : ℚ × ℚ := l.getD i (0, 0)

/-- The binary-search loop of `NearestValueLookUp._find_closest_item`,
with an explicit iteration budget (`hi - lo` strictly decreases on every
iteration, so a budget of the initial `hi - lo` is enough; the budget
keeps the recursion structural).  `i = (hi + lo) / 2` is Python-2
integer division.  The `lo == hi` entry check and the loop's own exit
coincide in the `hi ≤ lo` branch. -/
def findClosestGo (arr : List (ℚ × ℚ)) (v : ℚ) : ℕ → ℕ → ℕ → ℕ
  | 0, lo, _ => lo
  | fuel + 1, lo, hi =>
    if lo < hi then
      let i := (hi + lo) / 2
      let x := (cellGet arr i).1
      if x = v then i
      else if hi - lo = 1 then i
      else if x < v then findClosestGo arr v fuel i hi
      else findClosestGo arr v fuel lo i
    else lo

def findClosestAux (arr : List (ℚ × ℚ)) (v : ℚ) (lo hi : ℕ) : ℕ :=
  findClosestGo arr v (hi - lo) lo hi

/-- `NearestValueLookUp`: an immutable score→value table sorted ascending
by score (`ScoreIndex` in the specification). -/
structure NearestValueLookUp where
  items : List (ℚ × ℚ)
deriving DecidableEq, Repr

/-- `NearestValueLookUp.__init__` on NaN-free data: sort the pairs by
score (the `np.isnan` filter is the identity on rationals; see the
`PFloat` model below for NaN handling). -/
def mkNVLU (l : List (ℚ × ℚ)) : NearestValueLookUp := ⟨sortCells l⟩

/-- `_find_closest_item(value)` on a non-empty table. -/
def NearestValueLookUp.findClosestItem (t : NearestValueLookUp) (v : ℚ) : ℕ :=
  findClosestAux t.items v 0 (t.items.length - 1)

/-- `NearestValueLookUp.__getitem__`.  On an empty table the Python code
raises `IndexError` (`array[-1]` inside `_find_closest_item`, or the
clipped `items[-1]` re-raise): modelled by `none`. -/
def NearestValueLookUp.getItem (t : NearestValueLookUp) (k : ℚ) : Option ℚ :=
  if t.items.isEmpty then none
  else
    let ix0 := t.findClosestItem k + 1
    let ix := if t.items.length ≤ ix0 then t.items.length - 1 else ix0
    let pair := cellGet t.items ix
    if pair.1 < k then some 0 else some pair.2

/-! ### `ScoreThresholdCounter` -/

/-- Python `dict` assignment on an association list: update the first
binding of the key, or append a new binding. -/
def dictSet (d : List (ℚ × ℕ)) (k : ℚ) (v : ℕ) : List (ℚ × ℕ) :=
  match d with
  | [] => [(k, v)]
  | (k', v') :: rest => if k' = k then (k, v) :: rest else (k', v') :: dictSet rest k v

/-- The mutable state of a `ScoreThresholdCounter` scan. -/
structure STCState where
  thresholds : List ℚ
  thresholdIndex : ℕ
  currentThreshold : ℚ
  counter : List (ℚ × ℕ)
  currentCount : ℕ
deriving Repr

/-- `ScoreThresholdCounter.advance_threshold`: step to the next threshold
and snapshot the running count for it; the boolean is the return value
(`False` once thresholds are exhausted, where `_is_done` is set). -/
def advanceThreshold (s : STCState) : STCState × Bool :=
  let idx := s.thresholdIndex + 1
  if idx < s.thresholds.length then
    let ct := s.thresholds.getD idx 0
    ({ s with thresholdIndex := idx, currentThreshold := ct,
              counter := dictSet s.counter ct s.currentCount }, true)
  else
    ({ s with thresholdIndex := idx }, false)

theorem advanceThreshold_true {s s1 : STCState}
    (h : advanceThreshold s = (s1, true)) :
    s.thresholdIndex + 1 < s.thresholds.length ∧
      s1.thresholdIndex = s.thresholdIndex + 1 ∧ s1.thresholds = s.thresholds := by
  unfold advanceThreshold at h
  by_cases hc : s.thresholdIndex + 1 < s.thresholds.length
  · rw [if_pos hc] at h
    injection h with h1 _
    subst h1
    exact ⟨hc, rfl, rfl⟩
  · rw [if_neg hc] at h
    injection h with _ h2
    exact (Bool.false_ne_true h2).elim

/-- The `while self.advance_threshold():` loop inside
`ScoreThresholdCounter.test` (the recursion-inverted branch), with an
explicit iteration budget: every iteration increments `thresholdIndex`,
so `length - thresholdIndex + 1` iterations always suffice and the
budget keeps the recursion structural. -/
def testLoopGo (score : ℚ) : ℕ → STCState → STCState
  | 0, s => s
  | fuel + 1, s =>
    match advanceThreshold s with
    | (s1, true) =>
      if score > s1.currentThreshold then testLoopGo score fuel s1
      else { s1 with currentCount := s1.currentCount + 1 }
    | (s1, false) => s1

def testLoop (score : ℚ) (s : STCState) : STCState :=
  testLoopGo score (s.thresholds.length - s.thresholdIndex + 1) s

/-- `ScoreThresholdCounter.test(item)` (the `_i` bookkeeping counter is
unused by the algorithm and omitted). -/
def testScore (score : ℚ) (s : STCState) : STCState :=
  if score < s.currentThreshold then { s with currentCount := s.currentCount + 1 }
  else testLoop score s

/-- `ScoreThresholdCounter.find_counts`. -/
def findCounts (series : List ℚ) (s0 : STCState) : STCState :=
  series.foldl (fun s x => testScore x s) s0

/-- The finished `ScoreThresholdCounter`. -/
structure ScoreThresholdCounter where
  series : List Item
  thresholds : List ℚ
  counterEntries : List (ℚ × ℕ)
  counter : NearestValueLookUp
  countsAboveThreshold : NearestValueLookUp
deriving Repr

/-- `ScoreThresholdCounter.__init__` followed by `find_counts`,
`compute_complement` and the final `NearestValueLookUp` wrapping.  On an
empty threshold list Python raises `IndexError` reading
`self.thresholds[0]`: modelled by `none`. -/
def mkSTC (series : List Item) (thresholds : List ℚ) : Option ScoreThresholdCounter :=
  let sorted := sortItems series
  let thr := sortDedup (thresholds.map roundTo10)
  match thr with
  | [] => none
  | t0 :: rest =>
    let s0 : STCState :=
      { thresholds := t0 :: rest, thresholdIndex := 0, currentThreshold := t0,
        counter := [], currentCount := 0 }
    let s1 := findCounts (sorted.map (·.score)) s0
    let n : ℚ := (series.length : ℚ)
    some { series := sorted, thresholds := t0 :: rest,
           counterEntries := s1.counter,
           counter := mkNVLU (s1.counter.map (fun p => (p.1, (p.2 : ℚ)))),
           countsAboveThreshold := mkNVLU (s1.counter.map (fun p => (p.1, n - (p.2 : ℚ)))) }

/-! ### `TargetDecoyAnalyzer` -/

/-- Construction-time configuration of a `TargetDecoyAnalyzer`.  `corrF`
models the negative-binomial `expectation_correction(targets, decoys)`
value: the source computes it with floating-point `exp`/`log` arithmetic,
which has no exact rational counterpart, so the estimator is modelled
parametrically in that function. -/
structure TDAConfig where
  withPit : Bool
  decoyCorrection : ℚ
  databaseRatio : ℚ
  targetWeight : ℚ
  corrF : ℚ → ℚ → ℚ

/-- `TargetDecoyAnalyzer` after construction. -/
structure TargetDecoyAnalyzer where
  targets : List Item
  decoys : List Item
  targetCount : ℕ
  decoyCount : ℕ
  cfg : TDAConfig
  thresholds : List ℚ
  nTargetsAt : NearestValueLookUp
  nDecoysAt : NearestValueLookUp
  qValueMap : NearestValueLookUp

/-- `TargetDecoyAnalyzer.calculate_thresholds`: the sorted distinct score
union, plus the two `counts_above_threshold` tables.  When the threshold
set is empty the source leaves the plain `{}` dicts in place; both are
modelled as empty tables (every lookup on either signals failure). -/
def calculateThresholds (targets decoys : List Item) :
    List ℚ × NearestValueLookUp × NearestValueLookUp :=
  match mkSTC targets (sortDedup (targets.map (·.score) ++ decoys.map (·.score))),
        mkSTC decoys (sortDedup (targets.map (·.score) ++ decoys.map (·.score))) with
  | some a, some b =>
    (sortDedup (targets.map (·.score) ++ decoys.map (·.score)),
     a.countsAboveThreshold, b.countsAboveThreshold)
  | _, _ => (sortDedup (targets.map (·.score) ++ decoys.map (·.score)), ⟨[]⟩, ⟨[]⟩)

/-- `TargetDecoyAnalyzer.n_decoys_above_threshold`: table lookup plus the
configured `decoy_correction` offset; an `IndexError` from an empty table
is absorbed into the offset alone, any other failure propagates. -/
def nDecoysAboveThreshold (tda : TargetDecoyAnalyzer) (threshold : ℚ) : Option ℚ :=
  match tda.nDecoysAt.getItem threshold with
  | some v => some (v + tda.cfg.decoyCorrection)
  | none => if tda.nDecoysAt.items.length = 0 then some tda.cfg.decoyCorrection else none

/-- `TargetDecoyAnalyzer.n_targets_above_threshold`. -/
def nTargetsAboveThreshold (tda : TargetDecoyAnalyzer) (threshold : ℚ) : Option ℚ :=
  match tda.nTargetsAt.getItem threshold with
  | some v => some v
  | none => if tda.nTargetsAt.items.length = 0 then some 0 else none

/-- `TargetDecoyAnalyzer.target_decoy_ratio(cutoff)`, returning
`(ratio, targets_at, decoys_at)`.  The `ZeroDivisionError` fallback keeps
the raw numerator; the broad `except` around `expectation_correction`
is subsumed by `corrF` being total. -/
def targetDecoyRatio (tda : TargetDecoyAnalyzer) (cutoff : ℚ) : Option (ℚ × ℚ × ℚ) :=
  match nDecoysAboveThreshold tda cutoff, nTargetsAboveThreshold tda cutoff with
  | some decoysAt, some targetsAt =>
    let decoyCorrection : ℚ :=
      if tda.cfg.decoyCorrection ≠ 0 then tda.cfg.corrF targetsAt decoysAt else 0
    let denom := targetsAt * tda.cfg.databaseRatio * tda.cfg.targetWeight
    let ratio := if denom = 0 then decoysAt + decoyCorrection
                 else (decoysAt + decoyCorrection) / denom
    some (ratio, targetsAt, decoysAt)
  | _, _ => none

/-- `TargetDecoyAnalyzer.estimate_percent_incorrect_targets(cutoff)`;
`none` is the (uncaught here) `ZeroDivisionError` when no decoys are cut. -/
def estimatePercentIncorrectTargets (tda : TargetDecoyAnalyzer) (cutoff : ℚ) : Option ℚ :=
  match nTargetsAboveThreshold tda cutoff, nDecoysAboveThreshold tda cutoff with
  | some targetsAt, some decoysAt =>
    let targetCut := (tda.targetCount : ℚ) - targetsAt
    let decoyCut := (tda.decoyCount : ℚ) - decoysAt
    if decoyCut = 0 then none else some (targetCut / decoyCut)
  | _, _ => none

/-- `TargetDecoyAnalyzer.fdr_with_percent_incorrect_targets(cutoff)`. -/
def fdrWithPercentIncorrectTargets (tda : TargetDecoyAnalyzer) (cutoff : ℚ) : Option ℚ :=
  if tda.cfg.withPit then
    match estimatePercentIncorrectTargets tda cutoff, targetDecoyRatio tda cutoff with
    | some pit, some (ratio, _, _) => some (pit * ratio)
    | _, _ => none
  else
    match targetDecoyRatio tda cutoff with
    | some (ratio, _, _) => some ratio
    | none => none

/-- `last_score < threshold` where `last_score` may be the initial
`float('inf')` (modelled by `none`, for which the comparison is false). -/
def ltInf (lastScore : Option ℚ) (t : ℚ) : Bool :=
  match lastScore with
  | none => false
  | some s => decide (s < t)

/-- One step of the monotonic smoothing pass in
`TargetDecoyAnalyzer._calculate_q_values`.  The running state is
`(lastScore, lastQ, mapping)`.  A `ZeroDivisionError` (`none` from the
FDR computation) maps the threshold to `1` and leaves the running state
untouched. -/
def qValueStep (tda : TargetDecoyAnalyzer) (st : Option ℚ × ℚ × List (ℚ × ℚ)) (t : ℚ) :
    Option ℚ × ℚ × List (ℚ × ℚ) :=
  let (lastScore, lastQ, mapping) := st
  match fdrWithPercentIncorrectTargets tda t with
  | some q =>
    let q' := if lastQ < q ∧ ltInf lastScore t = true then lastQ else q
    (some t, q', mapping ++ [(t, q')])
  | none => (lastScore, lastQ, mapping ++ [(t, 1)])

/-- `TargetDecoyAnalyzer._calculate_q_values`. -/
def calculateQValues (tda : TargetDecoyAnalyzer) : NearestValueLookUp :=
  let res := tda.thresholds.foldl (qValueStep tda) (none, 0, [])
  mkNVLU res.2.2

/-- The state of `TargetDecoyAnalyzer.__init__` right after
`calculate_thresholds`, before `_calculate_q_values` runs. -/
def mkTDAbase (targets decoys : List Item) (cfg : TDAConfig) : TargetDecoyAnalyzer :=
  let tcd := calculateThresholds targets decoys
  { targets := targets, decoys := decoys,
    targetCount := targets.length, decoyCount := decoys.length,
    cfg := cfg, thresholds := tcd.1,
    nTargetsAt := tcd.2.1, nDecoysAt := tcd.2.2, qValueMap := ⟨[]⟩ }

/-- `TargetDecoyAnalyzer.__init__`: eager construction of thresholds,
count tables and the q-value map. -/
def mkTDA (targets decoys : List Item) (cfg : TDAConfig) : TargetDecoyAnalyzer :=
  { mkTDAbase targets decoys cfg with
    qValueMap := calculateQValues (mkTDAbase targets decoys cfg) }

/-- The spec's `q_value_of(score)`: a lookup on the calibration curve
(`self._q_value_map[score]`). -/
def qValueOf (tda : TargetDecoyAnalyzer) (s : ℚ) : Option ℚ :=
  tda.qValueMap.getItem s

/-- `TargetDecoyAnalyzer.score(spectrum_match)`: write the looked-up
q-value into the item; `none` models the propagated `IndexError`. -/
def TargetDecoyAnalyzer.score (tda : TargetDecoyAnalyzer) (item : Item) : Option Item :=
  (tda.qValueMap.getItem item.score).map (fun q => { item with qValue := q })

/-- The `for item in series: item.q_value = q_map[item.score]` loop of
`q_values`, returning the mutated list; `none` models a raised
`IndexError`. -/
def scoreAll (tda : TargetDecoyAnalyzer) : List Item → Option (List Item)
  | [] => some []
  | it :: rest =>
    match tda.score it with
    | some it' =>
      match scoreAll tda rest with
      | some rest' => some (it' :: rest')
      | none => none
    | none => none

/-- `TargetDecoyAnalyzer.q_values()`: write q-values back into every
target and decoy; the returned lists model the mutated collections. -/
def qValues (tda : TargetDecoyAnalyzer) : Option (List Item × List Item) :=
  match scoreAll tda tda.targets, scoreAll tda tda.decoys with
  | some ts, some ds => some (ts, ds)
  | _, _ => none

/-! ### `GroupwiseTargetDecoyAnalyzer` -/

/-- `GroupwiseTargetDecoyAnalyzer.find_group`: index of the first
matching predicate. -/
def findGroup (fns : List (Item → Bool)) (x : Item) : Option ℕ :=
  match fns with
  | [] => none
  | f :: rest => if f x then some 0 else (findGroup rest x).map (· + 1)

/-- Distribute items into per-predicate buckets, first match wins; an
item matching no predicate makes Python index `groups[None]`
(`TypeError`), modelled by `none`. -/
def assignAll (fns : List (Item → Bool)) : List Item → List (List Item) → Option (List (List Item))
  | [], buckets => some buckets
  | x :: xs, buckets =>
    match findGroup fns x with
    | some i => assignAll fns xs (buckets.set i (buckets.getD i [] ++ [x]))
    | none => none

/-- `GroupwiseTargetDecoyAnalyzer` after construction. -/
structure GroupwiseTargetDecoyAnalyzer where
  groupingFunctions : List (Item → Bool)
  groups : List (List Item × List Item)
  groupFits : List TargetDecoyAnalyzer
  cfg : TDAConfig

/-- `GroupwiseTargetDecoyAnalyzer.__init__` + `partition`: partition both
populations by first matching predicate and fit one `TargetDecoyAnalyzer`
per group with the shared configuration.  `fns?` models the
`grouping_functions=None` default (a single always-true predicate). -/
def mkGTDA (targets decoys : List Item) (cfg : TDAConfig)
    (fns? : Option (List (Item → Bool))) : Option GroupwiseTargetDecoyAnalyzer :=
  let fns := fns?.getD [fun _ => true]
  match assignAll fns targets (List.replicate fns.length []),
        assignAll fns decoys (List.replicate fns.length []) with
  | some tb, some db =>
    let groups := tb.zip db
    some { groupingFunctions := fns, groups := groups,
           groupFits := groups.map (fun g => mkTDA g.1 g.2 cfg), cfg := cfg }
  | _, _ => none

/-- `GroupwiseTargetDecoyAnalyzer.score`: dispatch to the fitted
sub-estimator of the first matching group (`group_fits[None]` raises). -/
def GroupwiseTargetDecoyAnalyzer.score (g : GroupwiseTargetDecoyAnalyzer) (x : Item) :
    Option Item :=
  match findGroup g.groupingFunctions x with
  | some i =>
    match g.groupFits.get? i with
    | some fit => fit.score x
    | none => none
  | none => none

/-! ### NaN model for threshold construction and index building -/

/-- A Python float that may be NaN. -/
inductive PFloat where
  | nan : PFloat
  | val : ℚ → PFloat
deriving DecidableEq, Repr

/-- `np.isnan`. -/
def PFloat.isNaN : PFloat → Bool
  | .nan => true
  | .val _ => false

/-- IEEE `<` on floats: every comparison with NaN is false. -/
def PFloat.lt : PFloat → PFloat → Bool
  | .val a, .val b => a < b
  | _, _ => false

/-- Insertion into a sorted duplicate-free list of possibly-NaN scores
(the NaN-relevant fragment of `sorted(set(...))`; comparisons with NaN
are false, so a NaN head never moves). -/
def insertDedupP (x : PFloat) : List PFloat → List PFloat
  | [] => [x]
  | y :: ys => if PFloat.lt x y then x :: y :: ys
               else if x = y then y :: ys else y :: insertDedupP x ys

/-- `sorted({targets' scores} | {decoys' scores})` in
`TargetDecoyAnalyzer.calculate_thresholds`, over possibly-NaN scores:
no NaN filtering happens here. -/
def calculateThresholdsP (targetScores decoyScores : List PFloat) : List PFloat :=
  (targetScores ++ decoyScores).foldl (fun acc x => insertDedupP x acc) []

/-- Sorted insertion of a possibly-NaN-keyed cell. -/
def insertCellP (c : PFloat × ℚ) : List (PFloat × ℚ) → List (PFloat × ℚ)
  | [] => [c]
  | d :: ds => if PFloat.lt c.1 d.1 then c :: d :: ds else d :: insertCellP c ds

/-- `NearestValueLookUp.__init__` over possibly-NaN keys: drop every cell
whose score is NaN (`if not np.isnan(x[0])`), then sort by score. -/
def mkNVLUP (l : List (PFloat × ℚ)) : List (PFloat × ℚ) :=
  (l.filter (fun c => !c.1.isNaN)).foldl (fun acc c => insertCellP c acc) []

/-! ### Ordering and sorting lemmas -/

/-- Keys of a cell list are strictly ascending. -/
def SKey (l : List (ℚ × ℚ)) : Prop := List.Chain' (fun a b => a.1 < b.1) l

/-- Values of a cell list are non-increasing. -/
def VDesc (l : List (ℚ × ℚ)) : Prop := List.Chain' (fun a b => b.2 ≤ a.2) l

theorem skey_trans : Transitive (fun a b : ℚ × ℚ => a.1 < b.1) :=
  fun _ _ _ h1 h2 => lt_trans h1 h2

theorem vdesc_trans : Transitive (fun a b : ℚ × ℚ => b.2 ≤ a.2) :=
  fun _ _ _ h1 h2 => le_trans h2 h1

theorem chain'_pairwise {α : Type} {R : α → α → Prop} (ht : Transitive R) :
    ∀ {l : List α}, List.Chain' R l → List.Pairwise R l := by
  intro l
  induction l with
  | nil => intro _; exact List.Pairwise.nil
  | cons a as ih =>
    intro h
    have htail : List.Pairwise R as := ih h.tail
    refine List.pairwise_cons.mpr ⟨?_, htail⟩
    intro b hb
    cases as with
    | nil => cases hb
    | cons c rest =>
      have hac : R a c := (List.chain'_cons.mp h).1
      rcases List.mem_cons.mp hb with rfl | hbr
      · exact hac
      · exact ht hac ((List.pairwise_cons.mp htail).1 b hbr)

theorem cellGet_eq_getElem {l : List (ℚ × ℚ)} {i : ℕ} (h : i < l.length) :
    cellGet l i = l[i] := List.getD_eq_getElem l (0, 0) h

theorem skey_strict {l : List (ℚ × ℚ)} (h : SKey l) {i j : ℕ} (hij : i < j)
    (hj : j < l.length) : (cellGet l i).1 < (cellGet l j).1 := by
  rw [cellGet_eq_getElem (lt_trans hij hj), cellGet_eq_getElem hj]
  have hp : List.Pairwise (fun a b : ℚ × ℚ => a.1 < b.1) l := chain'_pairwise skey_trans h
  exact List.pairwise_iff_getElem.mp hp i j (lt_trans hij hj) hj hij

theorem skey_mono {l : List (ℚ × ℚ)} (h : SKey l) {i j : ℕ} (hij : i ≤ j)
    (hj : j < l.length) : (cellGet l i).1 ≤ (cellGet l j).1 := by
  rcases lt_or_eq_of_le hij with hlt | rfl
  · exact le_of_lt (skey_strict h hlt hj)
  · exact le_refl _

theorem vdesc_mono {l : List (ℚ × ℚ)} (h : VDesc l) {i j : ℕ} (hij : i ≤ j)
    (hj : j < l.length) : (cellGet l j).2 ≤ (cellGet l i).2 := by
  rcases lt_or_eq_of_le hij with hlt | rfl
  · rw [cellGet_eq_getElem (lt_trans hlt hj), cellGet_eq_getElem hj]
    have hp : List.Pairwise (fun a b : ℚ × ℚ => b.2 ≤ a.2) l := chain'_pairwise vdesc_trans h
    exact List.pairwise_iff_getElem.mp hp i j (lt_trans hlt hj) hj hlt
  · exact le_refl _

theorem mem_insertCell {c d : ℚ × ℚ} {l : List (ℚ × ℚ)} :
    d ∈ insertCell c l ↔ d = c ∨ d ∈ l := by
  induction l with
  | nil => simp [insertCell]
  | cons e es ih =>
    by_cases hc : c.1 < e.1
    · simp only [insertCell, if_pos hc, List.mem_cons] <;> tauto
    · simp only [insertCell, if_neg hc, List.mem_cons, ih] <;> tauto

theorem mem_sortCells {d : ℚ × ℚ} {l : List (ℚ × ℚ)} :
    d ∈ sortCells l ↔ d ∈ l := by
  suffices h : ∀ acc, d ∈ l.foldl (fun acc c => insertCell c acc) acc ↔ d ∈ acc ∨ d ∈ l by
    have := h []
    simpa [sortCells] using this
  induction l with
  | nil => intro acc; simp
  | cons e es ih =>
    intro acc
    simp only [List.foldl_cons, ih, mem_insertCell, List.mem_cons]
    tauto

/-- Inserting a cell whose key exceeds every key in a sorted list appends it. -/
theorem insertCell_append {c : ℚ × ℚ} {l : List (ℚ × ℚ)}
    (h : ∀ d ∈ l, d.1 < c.1) : insertCell c l = l ++ [c] := by
  induction l with
  | nil => simp [insertCell]
  | cons e es ih =>
    have he : e.1 < c.1 := h e (List.mem_cons_self e es)
    simp only [insertCell, if_neg (not_lt_of_gt he), List.cons_append]
    exact congrArg _ (ih fun d hd => h d (List.mem_cons_of_mem e hd))

/-- Sorting a list whose keys are already strictly ascending is the identity. -/
theorem sortCells_eq_self {l : List (ℚ × ℚ)} (h : SKey l) : sortCells l = l := by
  suffices hs : ∀ l acc, SKey (acc ++ l) →
      l.foldl (fun acc c => insertCell c acc) acc = acc ++ l by
    simpa using hs l [] h
  intro l
  induction l with
  | nil => intro acc _; simp
  | cons e es ih =>
    intro acc hchain
    have hp : List.Pairwise (fun a b : ℚ × ℚ => a.1 < b.1) (acc ++ e :: es) :=
      chain'_pairwise skey_trans hchain
    have hke : ∀ d ∈ acc, d.1 < e.1 := by
      intro d hd
      exact (List.pairwise_append.mp hp).2.2 d hd e (List.mem_cons_self e es)
    simp only [List.foldl_cons]
    rw [insertCell_append hke]
    have := ih (acc ++ [e]) (by simpa using hchain)
    rw [this]
    simp

theorem mem_insertDedup {x y : ℚ} {l : List ℚ} :
    y ∈ insertDedup x l ↔ y = x ∨ y ∈ l := by
  induction l with
  | nil => simp [insertDedup]
  | cons e es ih =>
    by_cases h1 : x < e
    · simp only [insertDedup, if_pos h1, List.mem_cons] <;> tauto
    · by_cases h2 : x = e
      · simp only [insertDedup, if_neg h1, if_pos h2, List.mem_cons]
        subst h2
        tauto
      · simp only [insertDedup, if_neg h1, if_neg h2, List.mem_cons, ih] <;> tauto

theorem head?_insertDedup {x : ℚ} {l : List ℚ} :
    (insertDedup x l).head? = some x ∨ (insertDedup x l).head? = l.head? := by
  cases l with
  | nil => left; rfl
  | cons e es =>
    by_cases h1 : x < e
    · left; simp [insertDedup, h1]
    · by_cases h2 : x = e
      · right; simp [insertDedup, h1, h2]
      · right; simp [insertDedup, h1, h2]

/-- `insertDedup` preserves strict ascending order. -/
theorem chain_insertDedup {x : ℚ} {l : List ℚ} (h : List.Chain' (· < ·) l) :
    List.Chain' (· < ·) (insertDedup x l) := by
  induction l with
  | nil => simp [insertDedup]
  | cons e es ih =>
    by_cases h1 : x < e
    · simp only [insertDedup, if_pos h1]
      exact List.chain'_cons.mpr ⟨h1, h⟩
    · by_cases h2 : x = e
      · simpa [insertDedup, h1, h2] using h
      · have hlt : e < x := lt_of_le_of_ne (not_lt.mp h1) (Ne.symm h2)
        have hrec := ih h.tail
        simp only [insertDedup, if_neg h1, if_neg h2]
        rw [List.chain'_cons']
        refine ⟨?_, hrec⟩
        intro y hy
        rcases head?_insertDedup (x := x) (l := es) with hh | hh
        · rw [hh] at hy
          cases hy
          exact hlt
        · rw [hh] at hy
          cases es with
          | nil => cases hy
          | cons f fs =>
            cases hy
            exact (List.chain'_cons.mp h).1

/-- `sortDedup` produces a strictly ascending list. -/
theorem chain_sortDedup (l : List ℚ) : List.Chain' (· < ·) (sortDedup l) := by
  suffices h : ∀ acc, List.Chain' (· < ·) acc →
      List.Chain' (· < ·) (l.foldl (fun acc x => insertDedup x acc) acc) by
    exact h [] (by simp)
  induction l with
  | nil => intro acc hacc; simpa using hacc
  | cons e es ih =>
    intro acc hacc
    exact ih _ (chain_insertDedup hacc)

/-! ### Characterization of the binary search and of `__getitem__` -/

theorem findClosestGo_stop {l : List (ℚ × ℚ)} {v : ℚ} {fuel lo hi : ℕ} (h : ¬lo < hi) :
    findClosestGo l v fuel lo hi = lo := by
  cases fuel with
  | zero => rfl
  | succ f => simp only [findClosestGo, if_neg h]

theorem findClosestGo_exact {l : List (ℚ × ℚ)} {v : ℚ} {fuel lo hi : ℕ} (h : lo < hi)
    (hx : (cellGet l ((hi + lo) / 2)).1 = v) :
    findClosestGo l v (fuel + 1) lo hi = (hi + lo) / 2 := by
  simp only [findClosestGo, if_pos h, if_pos hx]

theorem findClosestGo_one {l : List (ℚ × ℚ)} {v : ℚ} {fuel lo hi : ℕ} (h : lo < hi)
    (hx : (cellGet l ((hi + lo) / 2)).1 ≠ v) (h1 : hi - lo = 1) :
    findClosestGo l v (fuel + 1) lo hi = (hi + lo) / 2 := by
  simp only [findClosestGo, if_pos h, if_neg hx, if_pos h1]

theorem findClosestGo_left {l : List (ℚ × ℚ)} {v : ℚ} {fuel lo hi : ℕ} (h : lo < hi)
    (hx : (cellGet l ((hi + lo) / 2)).1 ≠ v) (h1 : hi - lo ≠ 1)
    (hlt : (cellGet l ((hi + lo) / 2)).1 < v) :
    findClosestGo l v (fuel + 1) lo hi = findClosestGo l v fuel ((hi + lo) / 2) hi := by
  simp only [findClosestGo, if_pos h, if_neg hx, if_neg h1, if_pos hlt]

theorem findClosestGo_right {l : List (ℚ × ℚ)} {v : ℚ} {fuel lo hi : ℕ} (h : lo < hi)
    (hx : (cellGet l ((hi + lo) / 2)).1 ≠ v) (h1 : hi - lo ≠ 1)
    (hlt : ¬(cellGet l ((hi + lo) / 2)).1 < v) :
    findClosestGo l v (fuel + 1) lo hi = findClosestGo l v fuel lo ((hi + lo) / 2) := by
  simp only [findClosestGo, if_pos h, if_neg hx, if_neg h1, if_neg hlt]

/-- Postcondition of the `_find_closest_item` loop: the returned index `j`
satisfies `j + 1 ≤ n - 1`, and either it is an exact hit, or `j` is a
left-neighbour index (`j = 0` or its score is `< v`) whose successor is
either the last slot or has score `> v`. -/
def FCPost (l : List (ℚ × ℚ)) (v : ℚ) (j : ℕ) : Prop :=
  j + 1 ≤ l.length - 1 ∧
  ((cellGet l j).1 = v ∨
   ((cellGet l j).1 ≠ v ∧ (j = 0 ∨ (cellGet l j).1 < v) ∧
    (j + 1 = l.length - 1 ∨ v < (cellGet l (j + 1)).1)))

theorem findClosestGo_post (l : List (ℚ × ℚ)) (v : ℚ) :
    ∀ fuel lo hi, hi - lo ≤ fuel → lo < hi → hi ≤ l.length - 1 →
    (lo = 0 ∨ (cellGet l lo).1 < v) → (hi = l.length - 1 ∨ v < (cellGet l hi).1) →
    FCPost l v (findClosestGo l v fuel lo hi) := by
  intro fuel
  induction fuel with
  | zero =>
    intro lo hi h0 hlt _ _ _
    omega
  | succ f ih =>
    intro lo hi hfuel hlt hhi hlo1 hhi1
    by_cases hx : (cellGet l ((hi + lo) / 2)).1 = v
    · rw [findClosestGo_exact hlt hx]
      exact ⟨by omega, Or.inl hx⟩
    · by_cases h1 : hi - lo = 1
      · rw [findClosestGo_one hlt hx h1]
        have hieq : (hi + lo) / 2 = lo := by omega
        rw [hieq] at hx ⊢
        refine ⟨by omega, Or.inr ⟨hx, hlo1, ?_⟩⟩
        have hlo2 : lo + 1 = hi := by omega
        rw [hlo2]
        exact hhi1
      · by_cases hlt2 : (cellGet l ((hi + lo) / 2)).1 < v
        · rw [findClosestGo_left hlt hx h1 hlt2]
          exact ih _ _ (by omega) (by omega) hhi (Or.inr hlt2) hhi1
        · rw [findClosestGo_right hlt hx h1 hlt2]
          have hvlt : v < (cellGet l ((hi + lo) / 2)).1 :=
            lt_of_le_of_ne (not_lt.mp hlt2) (Ne.symm hx)
          exact ih _ _ (by omega) (by omega) (by omega) hlo1 (Or.inr hvlt)

theorem findClosestItem_post (t : NearestValueLookUp) (v : ℚ)
    (h2 : 2 ≤ t.items.length) : FCPost t.items v (t.findClosestItem v) := by
  unfold NearestValueLookUp.findClosestItem findClosestAux
  exact findClosestGo_post t.items v (t.items.length - 1 - 0) 0 (t.items.length - 1)
    (le_refl _) (by omega) (by omega) (Or.inl rfl) (Or.inl rfl)

theorem getItem_empty {t : NearestValueLookUp} (h : t.items = []) {k : ℚ} :
    t.getItem k = none := by
  unfold NearestValueLookUp.getItem
  rw [h]
  rfl

theorem getItem_single {c : ℚ × ℚ} {k : ℚ} :
    NearestValueLookUp.getItem ⟨[c]⟩ k = some (if c.1 < k then 0 else c.2) := by
  unfold NearestValueLookUp.getItem NearestValueLookUp.findClosestItem
  have h0 : findClosestAux [c] k 0 (([c] : List (ℚ × ℚ)).length - 1) = 0 := rfl
  rw [h0]
  by_cases hc : c.1 < k
  · simp [cellGet, hc]
  · simp [cellGet, hc]

/-- On a table with at least two entries the lookup inspects the cell
right after the search result. -/
theorem getItem_eq_pair {t : NearestValueLookUp} {k : ℚ} (h2 : 2 ≤ t.items.length)
    (hj : t.findClosestItem k + 1 ≤ t.items.length - 1) :
    t.getItem k =
      if (cellGet t.items (t.findClosestItem k + 1)).1 < k then some 0
      else some (cellGet t.items (t.findClosestItem k + 1)).2 := by
  unfold NearestValueLookUp.getItem
  have hne : t.items.isEmpty = false := by
    cases h : t.items with
    | nil => rw [h] at h2; simp at h2
    | cons a as => rfl
  rw [hne]
  have hclip : ¬(t.items.length ≤ t.findClosestItem k + 1) := by omega
  simp only [Bool.false_eq_true, if_false, if_neg hclip]

/-- Query past the last stored score: the lookup answers the default `0`. -/
theorem getItem_top_lt {t : NearestValueLookUp} (hs : SKey t.items)
    (h2 : 2 ≤ t.items.length) {k : ℚ}
    (hk : (cellGet t.items (t.items.length - 1)).1 < k) : t.getItem k = some 0 := by
  obtain ⟨hjn, hpost⟩ := findClosestItem_post t k h2
  rw [getItem_eq_pair h2 hjn]
  set j := t.findClosestItem k with hjdef
  have hlast : (cellGet t.items (j + 1)).1 < k :=
    lt_of_le_of_lt (skey_mono hs (by omega) (by omega)) hk
  rw [if_pos hlast]

/-- Query equal to the last stored score: the lookup answers its value. -/
theorem getItem_top_eq {t : NearestValueLookUp} (hs : SKey t.items)
    (h2 : 2 ≤ t.items.length) {k : ℚ}
    (hk : k = (cellGet t.items (t.items.length - 1)).1) :
    t.getItem k = some ((cellGet t.items (t.items.length - 1)).2) := by
  obtain ⟨hjn, hpost⟩ := findClosestItem_post t k h2
  rw [getItem_eq_pair h2 hjn]
  set j := t.findClosestItem k with hjdef
  have hjtop : j + 1 = t.items.length - 1 := by
    rcases hpost with hA | ⟨hne, _, hup⟩
    · exfalso
      have : (cellGet t.items j).1 < (cellGet t.items (t.items.length - 1)).1 :=
        skey_strict hs (by omega) (by omega)
      rw [hA, hk] at this
      exact lt_irrefl _ this
    · rcases hup with h | h
      · exact h
      · exfalso
        have : (cellGet t.items (j + 1)).1 ≤ (cellGet t.items (t.items.length - 1)).1 :=
          skey_mono hs (by omega) (by omega)
        rw [← hk] at this
        exact absurd h (not_lt.mpr this)
  rw [hjtop, if_neg (by rw [← hk]; exact lt_irrefl k)]

/-- Query equal to a stored score other than the last: the lookup answers
the value of the NEXT stored score. -/
theorem getItem_exact_mid {t : NearestValueLookUp} (hs : SKey t.items)
    (h2 : 2 ≤ t.items.length) {k : ℚ} {i : ℕ} (hi : i + 1 ≤ t.items.length - 1)
    (hk : (cellGet t.items i).1 = k) :
    t.getItem k = some ((cellGet t.items (i + 1)).2) := by
  obtain ⟨hjn, hpost⟩ := findClosestItem_post t k h2
  rw [getItem_eq_pair h2 hjn]
  set j := t.findClosestItem k with hjdef
  have hji : j = i := by
    rcases hpost with hA | ⟨hne, hlow, hup⟩
    · by_contra hne
      rcases Nat.lt_or_ge j i with hlt | hge
      · have := skey_strict hs hlt (by omega)
        rw [hA, hk] at this
        exact lt_irrefl _ this
      · have hgt : i < j := by omega
        have := skey_strict hs hgt (by omega)
        rw [hA, hk] at this
        exact lt_irrefl _ this
    · exfalso
      by_cases hup2 : k < (cellGet t.items (j + 1)).1
      · rcases hlow with hj0 | hjlt
        · rcases Nat.eq_zero_or_pos i with hi0 | hipos
          · exact hne (by rw [hj0, ← hi0]; exact hk)
          · have hmono : (cellGet t.items (j + 1)).1 ≤ (cellGet t.items i).1 :=
              skey_mono hs (by omega) (by omega)
            rw [hk] at hmono
            exact absurd hup2 (not_lt.mpr hmono)
        · rcases Nat.lt_or_ge j i with hlt | hge
          · have : (cellGet t.items (j + 1)).1 ≤ (cellGet t.items i).1 :=
              skey_mono hs (by omega) (by omega)
            rw [hk] at this
            exact absurd hup2 (not_lt.mpr this)
          · have hgt : i < j := by
              rcases Nat.eq_or_lt_of_le hge with h | h
              · exact absurd (h ▸ hk) hne
              · exact h
            have := skey_strict hs hgt (by omega)
            rw [hk] at this
            exact absurd hjlt (not_lt.mpr (le_of_lt this))
      · rcases hup with hjtop | h
        · -- j + 1 = n - 1 and the last score is ≤ k = score i with i ≤ n - 2
          have hlen : (cellGet t.items (j + 1)).1 ≤ k := not_lt.mp hup2
          have hlast : i < j + 1 := by
            by_contra hcon
            have hge : j + 1 ≤ i := by omega
            rcases Nat.eq_or_lt_of_le hge with he | hlt2
            · rw [he] at hjtop; omega
            · omega
          have := skey_strict hs hlast (by omega)
          rw [hk] at this
          exact absurd hlen (not_le.mpr this)
        · exact hup2 h
  rw [hji]
  have hnext : k < (cellGet t.items (i + 1)).1 := by
    have := skey_strict hs (Nat.lt_succ_self i) (by omega)
    rw [hk] at this
    exact this
  rw [if_neg (not_lt.mpr (le_of_lt hnext))]

/-- Query strictly below the first stored score of a table with at least
two entries: the lookup answers the SECOND entry's value. -/
theorem getItem_below {t : NearestValueLookUp} (hs : SKey t.items)
    (h2 : 2 ≤ t.items.length) {k : ℚ} (hk : k < (cellGet t.items 0).1) :
    t.getItem k = some ((cellGet t.items 1).2) := by
  obtain ⟨hjn, hpost⟩ := findClosestItem_post t k h2
  rw [getItem_eq_pair h2 hjn]
  set j := t.findClosestItem k with hjdef
  have hj0 : j = 0 := by
    rcases hpost with hA | ⟨hne, hlow, _⟩
    · exfalso
      have : (cellGet t.items 0).1 ≤ (cellGet t.items j).1 :=
        skey_mono hs (Nat.zero_le j) (by omega)
      rw [hA] at this
      exact absurd hk (not_lt.mpr this)
    · rcases hlow with h | h
      · exact h
      · exfalso
        have : (cellGet t.items 0).1 ≤ (cellGet t.items j).1 :=
          skey_mono hs (Nat.zero_le j) (by omega)
        have := lt_of_le_of_lt this h
        exact absurd hk (not_lt.mpr (le_of_lt this))
  rw [hj0]
  have hnext : k < (cellGet t.items 1).1 :=
    lt_of_lt_of_le hk (skey_mono hs (Nat.zero_le 1) (by omega))
  rw [if_neg (not_lt.mpr (le_of_lt hnext))]

/-- Query strictly between two adjacent stored scores: the lookup answers
the value of the upper neighbour (the smallest stored score `≥` query). -/
theorem getItem_between {t : NearestValueLookUp} (hs : SKey t.items)
    (h2 : 2 ≤ t.items.length) {k : ℚ} {i : ℕ} (hi : i + 1 ≤ t.items.length - 1)
    (hlo : (cellGet t.items i).1 < k) (hhi : k < (cellGet t.items (i + 1)).1) :
    t.getItem k = some ((cellGet t.items (i + 1)).2) := by
  obtain ⟨hjn, hpost⟩ := findClosestItem_post t k h2
  rw [getItem_eq_pair h2 hjn]
  set j := t.findClosestItem k with hjdef
  have hji : j = i := by
    rcases hpost with hA | ⟨hne, hlow, hup⟩
    · exfalso
      rcases Nat.lt_or_ge j (i + 1) with hlt | hge
      · have hle : (cellGet t.items j).1 ≤ (cellGet t.items i).1 :=
          skey_mono hs (by omega) (by omega)
        rw [hA] at hle
        exact absurd (lt_of_le_of_lt hle hlo) (lt_irrefl k)
      · have hle : (cellGet t.items (i + 1)).1 ≤ (cellGet t.items j).1 :=
          skey_mono hs hge (by omega)
        rw [hA] at hle
        exact absurd (lt_of_lt_of_le hhi hle) (lt_irrefl k)
    · by_contra hne2
      rcases Nat.lt_or_ge j i with hlt | hge
      · -- j < i: then items[j+1].1 ≤ items[i].1 < k, contradicting the upper bound
        have hle : (cellGet t.items (j + 1)).1 ≤ (cellGet t.items i).1 :=
          skey_mono hs (by omega) (by omega)
        rcases hup with hjtop | hup2
        · omega
        · exact absurd (lt_of_lt_of_le hup2 (le_of_lt (lt_of_le_of_lt hle hlo)))
            (lt_irrefl k)
      · have hgt : i < j := by omega
        -- i < j: then k < items[i+1].1 ≤ items[j].1, contradicting the lower bound
        have hle : (cellGet t.items (i + 1)).1 ≤ (cellGet t.items j).1 :=
          skey_mono hs (by omega) (by omega)
        rcases hlow with hj0 | hjlt
        · omega
        · exact absurd (lt_of_lt_of_le hhi (le_of_lt (lt_of_le_of_lt hle hjlt)))
            (lt_irrefl k)
  rw [hji, if_neg (not_lt.mpr (le_of_lt hhi))]

/-- Every successful lookup answer is the default `0` or a stored value. -/
theorem getItem_mem {t : NearestValueLookUp} {k r : ℚ} (h : t.getItem k = some r) :
    r = 0 ∨ r ∈ t.items.map (·.2) := by
  unfold NearestValueLookUp.getItem at h
  by_cases he : t.items.isEmpty
  · rw [if_pos he] at h
    cases h
  · rw [if_neg he] at h
    simp only [] at h
    set ix := if t.items.length ≤ t.findClosestItem k + 1 then t.items.length - 1
              else t.findClosestItem k + 1 with hix
    by_cases hcmp : (cellGet t.items ix).1 < k
    · rw [if_pos hcmp] at h
      left
      exact (Option.some_inj.mp h).symm
    · rw [if_neg hcmp] at h
      by_cases hlen : ix < t.items.length
      · right
        rw [← Option.some_inj.mp h]
        rw [cellGet_eq_getElem hlen]
        exact List.mem_map_of_mem _ (List.getElem_mem hlen)
      · left
        rw [← Option.some_inj.mp h]
        unfold cellGet
        rw [List.getD_eq_default _ _ (by omega)]

/-- The central monotonicity fact: on a table with strictly ascending
scores, non-increasing values, and non-negative values, the lookup is
antitone in the query. -/
theorem getItem_antitone {t : NearestValueLookUp} (hs : SKey t.items)
    (hv : VDesc t.items) (h0 : ∀ c ∈ t.items, 0 ≤ c.2) {s1 s2 r1 r2 : ℚ}
    (h12 : s1 ≤ s2) (e1 : t.getItem s1 = some r1) (e2 : t.getItem s2 = some r2) :
    r2 ≤ r1 := by
  have hr1nn : 0 ≤ r1 := by
    rcases getItem_mem e1 with h | h
    · rw [h]
    · obtain ⟨c, hc, hcr⟩ := List.mem_map.mp h
      rw [← hcr]
      exact h0 c hc
  rcases Nat.lt_or_ge t.items.length 2 with hn | h2
  · -- zero or one entry
    cases hitems : t.items with
    | nil => rw [getItem_empty hitems] at e1; cases e1
    | cons c cs =>
      cases hcs : cs with
      | cons d ds =>
        exfalso
        rw [hitems, hcs] at hn
        simp only [List.length_cons] at hn
        omega
      | nil =>
        have ht : t = ⟨[c]⟩ := by
          cases t with
          | mk items =>
            simp only [NearestValueLookUp.mk.injEq]
            simp only [] at hitems
            rw [hitems, hcs]
        rw [ht, getItem_single] at e1
        rw [ht, getItem_single] at e2
        have hc0 : 0 ≤ c.2 := h0 c (by rw [hitems, hcs]; exact List.mem_cons_self c [])
        have he1 : r1 = if c.1 < s1 then 0 else c.2 := (Option.some_inj.mp e1).symm
        have he2 : r2 = if c.1 < s2 then 0 else c.2 := (Option.some_inj.mp e2).symm
        by_cases hk1 : c.1 < s1
        · have hk2 : c.1 < s2 := lt_of_lt_of_le hk1 h12
          rw [he1, he2, if_pos hk1, if_pos hk2]
        · by_cases hk2 : c.1 < s2
          · rw [he1, he2, if_neg hk1, if_pos hk2]
            exact hc0
          · rw [he1, he2, if_neg hk1, if_neg hk2]
  · obtain ⟨hj1n, hpost1⟩ := findClosestItem_post t s1 h2
    obtain ⟨hj2n, hpost2⟩ := findClosestItem_post t s2 h2
    rw [getItem_eq_pair h2 hj1n] at e1
    rw [getItem_eq_pair h2 hj2n] at e2
    set j1 := t.findClosestItem s1 with hj1def
    set j2 := t.findClosestItem s2 with hj2def
    by_cases hc2 : (cellGet t.items (j2 + 1)).1 < s2
    · rw [if_pos hc2] at e2
      rw [← Option.some_inj.mp e2]
      exact hr1nn
    · rw [if_neg hc2] at e2
      have hj12 : j1 ≤ j2 := by
        by_contra hcon
        have hj21 : j2 < j1 := by omega
        have hj1low : (cellGet t.items j1).1 ≤ s1 := by
          rcases hpost1 with hA | ⟨_, hlow, _⟩
          · exact le_of_eq hA
          · rcases hlow with h | h
            · omega
            · exact le_of_lt h
        have hstep : (cellGet t.items (j2 + 1)).1 ≤ (cellGet t.items j1).1 :=
          skey_mono hs (by omega) (by omega)
        rcases hpost2 with hA | ⟨_, _, hup⟩
        · have : s2 < (cellGet t.items (j2 + 1)).1 := by
            have := skey_strict hs (Nat.lt_succ_self j2) (by omega)
            rw [hA] at this
            exact this
          have := lt_of_lt_of_le this (le_trans hstep hj1low)
          exact absurd (lt_of_lt_of_le this h12) (lt_irrefl s2)
        · rcases hup with hjtop | hup2
          · omega
          · have := lt_of_lt_of_le hup2 (le_trans hstep hj1low)
            exact absurd (lt_of_lt_of_le this h12) (lt_irrefl s2)
      by_cases hc1 : (cellGet t.items (j1 + 1)).1 < s1
      · -- impossible: it would force s1 past the last entry, but s2 ≤ last
        exfalso
        have hj1top : j1 + 1 = t.items.length - 1 := by
          rcases hpost1 with hA | ⟨_, _, hup⟩
          · have : (cellGet t.items j1).1 < (cellGet t.items (j1 + 1)).1 :=
              skey_strict hs (Nat.lt_succ_self j1) (by omega)
            rw [hA] at this
            exact absurd (lt_trans this hc1) (lt_irrefl s1)
          · rcases hup with h | h
            · exact h
            · exact absurd (lt_trans hc1 h) (lt_irrefl _)
        have hle : (cellGet t.items (j2 + 1)).1 ≤ (cellGet t.items (j1 + 1)).1 := by
          refine skey_mono hs (by omega) (by omega)
        have : (cellGet t.items (j2 + 1)).1 < s2 :=
          lt_of_le_of_lt hle (lt_of_lt_of_le hc1 h12)
        exact hc2 this
      · rw [if_neg hc1] at e1
        rw [← Option.some_inj.mp e1, ← Option.some_inj.mp e2]
        exact vdesc_mono hv (by omega) (by omega)

/-! ### Invariants of the `ScoreThresholdCounter` scan -/

/-- Every recorded below-count is bounded by the running count. -/
def CounterBounded (s : STCState) : Prop := ∀ kv ∈ s.counter, kv.2 ≤ s.currentCount

theorem mem_dictSet {d : List (ℚ × ℕ)} {k : ℚ} {v : ℕ} {kv : ℚ × ℕ}
    (h : kv ∈ dictSet d k v) : kv ∈ d ∨ kv = (k, v) := by
  induction d with
  | nil =>
    simp only [dictSet, List.mem_singleton] at h
    exact Or.inr h
  | cons e es ih =>
    by_cases he : e.1 = k
    · simp only [dictSet, if_pos he, List.mem_cons] at h
      rcases h with h | h
      · exact Or.inr h
      · exact Or.inl (List.mem_cons_of_mem e h)
    · simp only [dictSet, if_neg he, List.mem_cons] at h
      rcases h with h | h
      · exact Or.inl (by rw [h]; exact List.mem_cons_self e es)
      · rcases ih h with h2 | h2
        · exact Or.inl (List.mem_cons_of_mem e h2)
        · exact Or.inr h2

theorem advanceThreshold_fst {s s1 : STCState} {b : Bool}
    (h : advanceThreshold s = (s1, b)) :
    s1.currentCount = s.currentCount ∧ s1.thresholds = s.thresholds ∧
    s1.thresholdIndex = s.thresholdIndex + 1 ∧
    ∀ kv ∈ s1.counter, kv ∈ s.counter ∨ kv.2 = s.currentCount := by
  unfold advanceThreshold at h
  by_cases hc : s.thresholdIndex + 1 < s.thresholds.length
  · rw [if_pos hc] at h
    injection h with h1 _
    subst h1
    refine ⟨rfl, rfl, rfl, ?_⟩
    intro kv hkv
    rcases mem_dictSet hkv with h | h
    · exact Or.inl h
    · exact Or.inr (by rw [h])
  · rw [if_neg hc] at h
    injection h with h1 _
    subst h1
    exact ⟨rfl, rfl, rfl, fun kv hkv => Or.inl hkv⟩

theorem testLoopGo_spec (score : ℚ) :
    ∀ fuel s,
      (s.currentCount ≤ (testLoopGo score fuel s).currentCount ∧
       (testLoopGo score fuel s).currentCount ≤ s.currentCount + 1 ∧
       (CounterBounded s → CounterBounded (testLoopGo score fuel s))) := by
  intro fuel
  induction fuel with
  | zero =>
    intro s
    exact ⟨le_refl _, Nat.le_succ _, fun h => h⟩
  | succ m ih =>
    intro s
    rw [testLoopGo]
    split
    · rename_i s1 hA
      obtain ⟨hcc, hth, hidx, hctr⟩ := advanceThreshold_fst hA
      have hb1 : CounterBounded s → CounterBounded s1 := by
        intro hbnd kv hkv
        rcases hctr kv hkv with h | h
        · exact le_trans (hbnd kv h) (le_of_eq hcc.symm)
        · omega
      by_cases hgt : score > s1.currentThreshold
      · rw [if_pos hgt]
        obtain ⟨ih1, ih2, ih3⟩ := ih s1
        exact ⟨by omega, by omega, fun hbnd => ih3 (hb1 hbnd)⟩
      · rw [if_neg hgt]
        refine ⟨?_, ?_, ?_⟩
        · show s.currentCount ≤ s1.currentCount + 1
          omega
        · show s1.currentCount + 1 ≤ s.currentCount + 1
          omega
        · intro hbnd kv hkv
          show kv.2 ≤ s1.currentCount + 1
          exact le_trans (hb1 hbnd kv hkv) (by omega)
    · rename_i s1 hA
      obtain ⟨hcc, hth, hidx, hctr⟩ := advanceThreshold_fst hA
      have hb1 : CounterBounded s → CounterBounded s1 := by
        intro hbnd kv hkv
        rcases hctr kv hkv with h | h
        · exact le_trans (hbnd kv h) (le_of_eq hcc.symm)
        · omega
      exact ⟨le_of_eq hcc.symm, by omega, hb1⟩

theorem testScore_spec (score : ℚ) (s : STCState) :
    s.currentCount ≤ (testScore score s).currentCount ∧
    (testScore score s).currentCount ≤ s.currentCount + 1 ∧
    (CounterBounded s → CounterBounded (testScore score s)) := by
  unfold testScore
  by_cases hlt : score < s.currentThreshold
  · rw [if_pos hlt]
    refine ⟨?_, ?_, ?_⟩
    · show s.currentCount ≤ s.currentCount + 1
      omega
    · show s.currentCount + 1 ≤ s.currentCount + 1
      omega
    · intro hbnd kv hkv
      show kv.2 ≤ s.currentCount + 1
      exact le_trans (hbnd kv hkv) (by omega)
  · rw [if_neg hlt, testLoop]
    exact testLoopGo_spec score (s.thresholds.length - s.thresholdIndex + 1) s

theorem findCounts_spec (series : List ℚ) :
    ∀ s, CounterBounded s →
      CounterBounded (findCounts series s) ∧
      (findCounts series s).currentCount ≤ s.currentCount + series.length := by
  induction series with
  | nil =>
    intro s hbnd
    exact ⟨hbnd, by simp [findCounts]⟩
  | cons x xs ih =>
    intro s hbnd
    obtain ⟨h1, h2, h3⟩ := testScore_spec x s
    obtain ⟨ih1, ih2⟩ := ih (testScore x s) (h3 hbnd)
    constructor
    · exact ih1
    · calc (findCounts xs (testScore x s)).currentCount
          ≤ (testScore x s).currentCount + xs.length := ih2
        _ ≤ s.currentCount + 1 + xs.length := by omega
        _ = s.currentCount + (x :: xs).length := by
            simp only [List.length_cons]
            omega

theorem length_insertItem (a : Item) (l : List Item) :
    (insertItem a l).length = l.length + 1 := by
  induction l with
  | nil => rfl
  | cons b bs ih =>
    by_cases h : a.score < b.score
    · simp [insertItem, h]
    · simp [insertItem, h, ih]

theorem length_sortItems (l : List Item) : (sortItems l).length = l.length := by
  suffices hs : ∀ acc, (l.foldl (fun acc a => insertItem a acc) acc).length
      = acc.length + l.length by
    simpa using hs []
  induction l with
  | nil => intro acc; simp
  | cons a as ih =>
    intro acc
    simp only [List.foldl_cons, ih, length_insertItem, List.length_cons]
    omega

/-- The values stored in the `counts_above_threshold` table lie in
`[0, len(series)]`. -/
theorem mkSTC_countsAbove_bounds {series : List Item} {thresholds : List ℚ}
    {stc : ScoreThresholdCounter} (h : mkSTC series thresholds = some stc) :
    ∀ c ∈ stc.countsAboveThreshold.items, 0 ≤ c.2 ∧ c.2 ≤ (series.length : ℚ) := by
  simp only [mkSTC] at h
  split at h
  · cases h
  · rename_i t0 rest hthr
    injection h with h
    have hitems : stc.countsAboveThreshold.items
        = sortCells ((findCounts ((sortItems series).map (·.score))
            { thresholds := t0 :: rest, thresholdIndex := 0, currentThreshold := t0,
              counter := [], currentCount := 0 }).counter.map
            (fun p => (p.1, (series.length : ℚ) - (p.2 : ℚ)))) := by
      rw [← h]
      rfl
    intro c hc
    rw [hitems, mem_sortCells] at hc
    obtain ⟨p, hp, hpc⟩ := List.mem_map.mp hc
    have hbnd0 : CounterBounded
        { thresholds := t0 :: rest, thresholdIndex := 0, currentThreshold := t0,
          counter := [], currentCount := 0 } := by
      intro kv hkv
      cases hkv
    obtain ⟨hbnd, hcc⟩ := findCounts_spec ((sortItems series).map (·.score)) _ hbnd0
    have hple : p.2 ≤ series.length := by
      have h1 := hbnd p hp
      have h0cc : (STCState.mk (t0 :: rest) 0 t0 [] 0).currentCount = 0 := rfl
      have h2 : ((sortItems series).map (·.score)).length = series.length := by
        rw [List.length_map, length_sortItems]
      omega
    rw [← hpc]
    have hc0 : (0 : ℚ) ≤ (p.2 : ℚ) := by positivity
    have hcast : (p.2 : ℚ) ≤ (series.length : ℚ) := by exact_mod_cast hple
    constructor
    · show (0 : ℚ) ≤ (series.length : ℚ) - (p.2 : ℚ)
      linarith
    · show (series.length : ℚ) - (p.2 : ℚ) ≤ (series.length : ℚ)
      linarith

/-! ### Totality and sign facts for the estimator's lookups and ratios -/

theorem getItem_isSome {t : NearestValueLookUp} (h : t.items.isEmpty = false) (k : ℚ) :
    (t.getItem k).isSome = true := by
  unfold NearestValueLookUp.getItem
  rw [h]
  simp only [Bool.false_eq_true, if_false]
  split
  · split
    · rfl
    · rfl
  · split
    · rfl
    · rfl

theorem nDecoysAboveThreshold_total (tda : TargetDecoyAnalyzer) (t : ℚ) :
    ∃ d, nDecoysAboveThreshold tda t = some d := by
  unfold nDecoysAboveThreshold
  cases hitems : tda.nDecoysAt.items with
  | nil =>
    rw [getItem_empty hitems]
    exact ⟨tda.cfg.decoyCorrection, rfl⟩
  | cons c cs =>
    have hsome := getItem_isSome (t := tda.nDecoysAt) (by rw [hitems]; rfl) t
    obtain ⟨r, hr⟩ := Option.isSome_iff_exists.mp hsome
    rw [hr]
    exact ⟨r + tda.cfg.decoyCorrection, rfl⟩

theorem nTargetsAboveThreshold_total (tda : TargetDecoyAnalyzer) (t : ℚ) :
    ∃ v, nTargetsAboveThreshold tda t = some v := by
  unfold nTargetsAboveThreshold
  cases hitems : tda.nTargetsAt.items with
  | nil =>
    rw [getItem_empty hitems]
    exact ⟨0, rfl⟩
  | cons c cs =>
    have hsome := getItem_isSome (t := tda.nTargetsAt) (by rw [hitems]; rfl) t
    obtain ⟨r, hr⟩ := Option.isSome_iff_exists.mp hsome
    rw [hr]
    exact ⟨r, rfl⟩

/-- Bounds of a successful lookup on a table whose values lie in `[0, n]`. -/
theorem getItem_bounds {t : NearestValueLookUp} {k r n : ℚ} (h : t.getItem k = some r)
    (hvals : ∀ c ∈ t.items, 0 ≤ c.2 ∧ c.2 ≤ n) (hn : 0 ≤ n) : 0 ≤ r ∧ r ≤ n := by
  rcases getItem_mem h with h0 | hmem
  · rw [h0]
    exact ⟨le_refl 0, hn⟩
  · obtain ⟨c, hc, hcr⟩ := List.mem_map.mp hmem
    rw [← hcr]
    exact hvals c hc

theorem nDecoysAboveThreshold_bounds (tda : TargetDecoyAnalyzer)
    (hD : ∀ c ∈ tda.nDecoysAt.items, 0 ≤ c.2 ∧ c.2 ≤ (tda.decoyCount : ℚ))
    (hc : 0 ≤ tda.cfg.decoyCorrection) {t d : ℚ}
    (h : nDecoysAboveThreshold tda t = some d) :
    0 ≤ d ∧ d ≤ (tda.decoyCount : ℚ) + tda.cfg.decoyCorrection := by
  unfold nDecoysAboveThreshold at h
  have hn : (0 : ℚ) ≤ (tda.decoyCount : ℚ) := by positivity
  cases hget : tda.nDecoysAt.getItem t with
  | some r =>
    rw [hget] at h
    obtain ⟨h0, h1⟩ := getItem_bounds hget hD hn
    have hd : d = r + tda.cfg.decoyCorrection := (Option.some_inj.mp h).symm
    rw [hd]
    constructor <;> linarith
  | none =>
    rw [hget] at h
    by_cases hlen : tda.nDecoysAt.items.length = 0
    · rw [if_pos hlen] at h
      have hd : d = tda.cfg.decoyCorrection := (Option.some_inj.mp h).symm
      rw [hd]
      constructor <;> linarith
    · rw [if_neg hlen] at h
      cases h

theorem nTargetsAboveThreshold_bounds (tda : TargetDecoyAnalyzer)
    (hT : ∀ c ∈ tda.nTargetsAt.items, 0 ≤ c.2 ∧ c.2 ≤ (tda.targetCount : ℚ)) {t v : ℚ}
    (h : nTargetsAboveThreshold tda t = some v) :
    0 ≤ v ∧ v ≤ (tda.targetCount : ℚ) := by
  unfold nTargetsAboveThreshold at h
  have hn : (0 : ℚ) ≤ (tda.targetCount : ℚ) := by positivity
  cases hget : tda.nTargetsAt.getItem t with
  | some r =>
    rw [hget] at h
    obtain ⟨h0, h1⟩ := getItem_bounds hget hT hn
    have hv : v = r := (Option.some_inj.mp h).symm
    rw [hv]
    exact ⟨h0, h1⟩
  | none =>
    rw [hget] at h
    by_cases hlen : tda.nTargetsAt.items.length = 0
    · rw [if_pos hlen] at h
      have hv : v = 0 := (Option.some_inj.mp h).symm
      rw [hv]
      exact ⟨le_refl 0, hn⟩
    · rw [if_neg hlen] at h
      cases h

theorem targetDecoyRatio_total (tda : TargetDecoyAnalyzer) (t : ℚ) :
    ∃ r tA dA, targetDecoyRatio tda t = some (r, tA, dA) := by
  obtain ⟨d, hd⟩ := nDecoysAboveThreshold_total tda t
  obtain ⟨v, hv⟩ := nTargetsAboveThreshold_total tda t
  unfold targetDecoyRatio
  rw [hd, hv]
  exact ⟨_, v, d, rfl⟩

theorem targetDecoyRatio_nonneg (tda : TargetDecoyAnalyzer)
    (hT : ∀ c ∈ tda.nTargetsAt.items, 0 ≤ c.2 ∧ c.2 ≤ (tda.targetCount : ℚ))
    (hD : ∀ c ∈ tda.nDecoysAt.items, 0 ≤ c.2 ∧ c.2 ≤ (tda.decoyCount : ℚ))
    (hc : 0 ≤ tda.cfg.decoyCorrection)
    (hcz : tda.cfg.decoyCorrection = 0 ∨ ∀ a b, 0 ≤ tda.cfg.corrF a b)
    (hdb : 0 < tda.cfg.databaseRatio) (hw : 0 < tda.cfg.targetWeight)
    {t r tA dA : ℚ} (h : targetDecoyRatio tda t = some (r, tA, dA)) : 0 ≤ r := by
  unfold targetDecoyRatio at h
  cases hd : nDecoysAboveThreshold tda t with
  | none => rw [hd] at h; cases h
  | some d =>
    cases hv : nTargetsAboveThreshold tda t with
    | none => rw [hd, hv] at h; cases h
    | some v =>
      rw [hd, hv] at h
      simp only [Option.some.injEq, Prod.mk.injEq] at h
      obtain ⟨hr, htA, hdA⟩ := h
      obtain ⟨hd0, _⟩ := nDecoysAboveThreshold_bounds tda hD hc hd
      obtain ⟨hv0, _⟩ := nTargetsAboveThreshold_bounds tda hT hv
      have hcorr0 : (0 : ℚ) ≤
          (if tda.cfg.decoyCorrection ≠ 0 then tda.cfg.corrF v d else 0) := by
        by_cases hz : tda.cfg.decoyCorrection = 0
        · rw [if_neg (by simpa using hz)]
        · rw [if_pos hz]
          rcases hcz with h | h
          · exact absurd h hz
          · exact h v d
      rw [← hr]
      by_cases hden : v * tda.cfg.databaseRatio * tda.cfg.targetWeight = 0
      · rw [if_pos hden]
        linarith
      · rw [if_neg hden]
        have hv0' : 0 < v := by
          rcases lt_or_eq_of_le hv0 with h | h
          · exact h
          · exfalso
            apply hden
            rw [← h, zero_mul, zero_mul]
        have hdpos : 0 < v * tda.cfg.databaseRatio * tda.cfg.targetWeight := by positivity
        exact div_nonneg (by linarith) (le_of_lt hdpos)

theorem fdr_total (tda : TargetDecoyAnalyzer) (hpit : tda.cfg.withPit = false) (t : ℚ) :
    ∃ q, fdrWithPercentIncorrectTargets tda t = some q := by
  obtain ⟨r, tA, dA, hr⟩ := targetDecoyRatio_total tda t
  unfold fdrWithPercentIncorrectTargets
  rw [hpit]
  simp only [Bool.false_eq_true, if_false]
  rw [hr]
  exact ⟨r, rfl⟩

theorem fdr_nonneg (tda : TargetDecoyAnalyzer)
    (hT : ∀ c ∈ tda.nTargetsAt.items, 0 ≤ c.2 ∧ c.2 ≤ (tda.targetCount : ℚ))
    (hD : ∀ c ∈ tda.nDecoysAt.items, 0 ≤ c.2 ∧ c.2 ≤ (tda.decoyCount : ℚ))
    (hc : 0 ≤ tda.cfg.decoyCorrection)
    (hcz : tda.cfg.decoyCorrection = 0 ∨ ∀ a b, 0 ≤ tda.cfg.corrF a b)
    (hpit : tda.cfg.withPit = false ∨ tda.cfg.decoyCorrection = 0)
    (hdb : 0 < tda.cfg.databaseRatio) (hw : 0 < tda.cfg.targetWeight)
    {t q : ℚ} (h : fdrWithPercentIncorrectTargets tda t = some q) : 0 ≤ q := by
  unfold fdrWithPercentIncorrectTargets at h
  by_cases hp : tda.cfg.withPit
  · rw [hp] at h
    simp only [if_true] at h
    cases hpi : estimatePercentIncorrectTargets tda t with
    | none => rw [hpi] at h; cases h
    | some pit =>
      cases hrat : targetDecoyRatio tda t with
      | none => rw [hpi, hrat] at h; cases h
      | some rta =>
        obtain ⟨r, tA, dA⟩ := rta
        rw [hpi, hrat] at h
        have hq : q = pit * r := (Option.some_inj.mp h).symm
        have hr0 : 0 ≤ r := targetDecoyRatio_nonneg tda hT hD hc hcz hdb hw hrat
        have hcz0 : tda.cfg.decoyCorrection = 0 := by
          rcases hpit with hcontra | h0
          · rw [hp] at hcontra; cases hcontra
          · exact h0
        -- the PIT factor is non-negative when no decoy-count offset is configured
        have hpit0 : 0 ≤ pit := by
          unfold estimatePercentIncorrectTargets at hpi
          cases hv : nTargetsAboveThreshold tda t with
          | none => rw [hv] at hpi; cases hpi
          | some v =>
            cases hd : nDecoysAboveThreshold tda t with
            | none => rw [hv, hd] at hpi; cases hpi
            | some d =>
              rw [hv, hd] at hpi
              have hpi2 : (if (tda.decoyCount : ℚ) - d = 0 then (none : Option ℚ)
                  else some (((tda.targetCount : ℚ) - v) / ((tda.decoyCount : ℚ) - d)))
                  = some pit := hpi
              obtain ⟨_, hvle⟩ := nTargetsAboveThreshold_bounds tda hT hv
              obtain ⟨_, hdle⟩ := nDecoysAboveThreshold_bounds tda hD hc hd
              rw [hcz0] at hdle
              by_cases hdc : (tda.decoyCount : ℚ) - d = 0
              · rw [if_pos hdc] at hpi2
                cases hpi2
              · rw [if_neg hdc] at hpi2
                have hpi' : pit = ((tda.targetCount : ℚ) - v) / ((tda.decoyCount : ℚ) - d) :=
                  (Option.some_inj.mp hpi2).symm
                have hnum : 0 ≤ (tda.targetCount : ℚ) - v := by linarith
                have hden : 0 < (tda.decoyCount : ℚ) - d := by
                  rcases lt_or_eq_of_le (by linarith :
                      (0 : ℚ) ≤ (tda.decoyCount : ℚ) - d) with hlt | heq
                  · exact hlt
                  · exact absurd heq.symm hdc
                rw [hpi']
                exact div_nonneg hnum (le_of_lt hden)
        rw [hq]
        exact mul_nonneg hpit0 hr0
  · rw [eq_false_of_ne_true hp] at h
    simp only [Bool.false_eq_true, if_false] at h
    cases hrat : targetDecoyRatio tda t with
    | none => rw [hrat] at h; cases h
    | some rta =>
      obtain ⟨r, tA, dA⟩ := rta
      rw [hrat] at h
      have hq : q = r := (Option.some_inj.mp h).symm
      rw [hq]
      exact targetDecoyRatio_nonneg tda hT hD hc hcz hdb hw hrat

theorem calculateThresholds_tables (targets decoys : List Item) :
    (∀ c ∈ (calculateThresholds targets decoys).2.1.items,
       0 ≤ c.2 ∧ c.2 ≤ (targets.length : ℚ)) ∧
    (∀ c ∈ (calculateThresholds targets decoys).2.2.items,
       0 ≤ c.2 ∧ c.2 ≤ (decoys.length : ℚ)) := by
  unfold calculateThresholds
  cases hA : mkSTC targets (sortDedup (targets.map (·.score) ++ decoys.map (·.score))) with
  | none =>
    cases hB : mkSTC decoys (sortDedup (targets.map (·.score) ++ decoys.map (·.score))) with
    | none =>
      exact ⟨fun c hc => absurd hc (List.not_mem_nil c),
             fun c hc => absurd hc (List.not_mem_nil c)⟩
    | some b =>
      exact ⟨fun c hc => absurd hc (List.not_mem_nil c),
             fun c hc => absurd hc (List.not_mem_nil c)⟩
  | some a =>
    cases hB : mkSTC decoys (sortDedup (targets.map (·.score) ++ decoys.map (·.score))) with
    | none =>
      exact ⟨fun c hc => absurd hc (List.not_mem_nil c),
             fun c hc => absurd hc (List.not_mem_nil c)⟩
    | some b =>
      exact ⟨fun c hc => mkSTC_countsAbove_bounds hA c hc,
             fun c hc => mkSTC_countsAbove_bounds hB c hc⟩

/-- The count tables produced at construction hold values within
`[0, population size]`. -/
theorem mkTDAbase_tables (targets decoys : List Item) (cfg : TDAConfig) :
    (∀ c ∈ (mkTDAbase targets decoys cfg).nTargetsAt.items,
       0 ≤ c.2 ∧ c.2 ≤ ((mkTDAbase targets decoys cfg).targetCount : ℚ)) ∧
    (∀ c ∈ (mkTDAbase targets decoys cfg).nDecoysAt.items,
       0 ≤ c.2 ∧ c.2 ≤ ((mkTDAbase targets decoys cfg).decoyCount : ℚ)) :=
  calculateThresholds_tables targets decoys

/-! ### The smoothing fold of `_calculate_q_values` -/

theorem qValueStep_some {tda : TargetDecoyAnalyzer} {ls : Option ℚ} {lq : ℚ}
    {m : List (ℚ × ℚ)} {t q : ℚ} (h : fdrWithPercentIncorrectTargets tda t = some q) :
    qValueStep tda (ls, lq, m) t =
      (some t, (if lq < q ∧ ltInf ls t = true then lq else q),
       m ++ [(t, if lq < q ∧ ltInf ls t = true then lq else q)]) := by
  unfold qValueStep
  rw [h]

theorem qValueStep_none {tda : TargetDecoyAnalyzer} {ls : Option ℚ} {lq : ℚ}
    {m : List (ℚ × ℚ)} {t : ℚ} (h : fdrWithPercentIncorrectTargets tda t = none) :
    qValueStep tda (ls, lq, m) t = (ls, lq, m ++ [(t, 1)]) := by
  unfold qValueStep
  rw [h]

/-- Every value appended by the smoothing fold is non-negative whenever
every computed FDR is. -/
theorem qfold_nonneg (tda : TargetDecoyAnalyzer)
    (hF : ∀ t q, fdrWithPercentIncorrectTargets tda t = some q → 0 ≤ q) :
    ∀ (ts : List ℚ) (ls : Option ℚ) (lq : ℚ) (m : List (ℚ × ℚ)),
      (∀ c ∈ m, 0 ≤ c.2) → 0 ≤ lq →
      ∀ c ∈ (ts.foldl (qValueStep tda) (ls, lq, m)).2.2, 0 ≤ c.2 := by
  intro ts
  induction ts with
  | nil =>
    intro ls lq m hm hlq c hc
    exact hm c hc
  | cons t ts' ih =>
    intro ls lq m hm hlq c hc
    rw [List.foldl_cons] at hc
    cases hfdr : fdrWithPercentIncorrectTargets tda t with
    | some q =>
      have hq0 := hF t q hfdr
      rw [qValueStep_some hfdr] at hc
      refine ih _ _ _ ?_ ?_ c hc
      · intro d hd
        rcases List.mem_append.mp hd with h | h
        · exact hm d h
        · have hd2 : d = (t, if lq < q ∧ ltInf ls t = true then lq else q) :=
            List.mem_singleton.mp h

          rw [hd2]
          by_cases hcond : lq < q ∧ ltInf ls t = true
          · show (0 : ℚ) ≤ if lq < q ∧ ltInf ls t = true then lq else q
            rw [if_pos hcond]
            exact hlq
          · show (0 : ℚ) ≤ if lq < q ∧ ltInf ls t = true then lq else q
            rw [if_neg hcond]
            exact hq0
      · by_cases hcond : lq < q ∧ ltInf ls t = true
        · rw [if_pos hcond]
          exact hlq
        · rw [if_neg hcond]
          exact hq0
    | none =>
      rw [qValueStep_none hfdr] at hc
      refine ih _ _ _ ?_ hlq c hc
      intro d hd
      rcases List.mem_append.mp hd with h | h
      · exact hm d h
      · have hd2 : d = (t, 1) := List.mem_singleton.mp h
        rw [hd2]
        norm_num

theorem chain'_getLast_lt {l : List ℚ} {a : ℚ} {r : List ℚ}
    (h : List.Chain' (· < ·) (l ++ a :: r)) : ∀ x ∈ l.getLast?, x < a := by
  intro x hx
  have hsplit := (List.chain'_append.mp h).2.2
  exact hsplit x hx a rfl

/-- The smoothing fold writes exactly one cell per threshold, in
threshold order, with non-increasing values, whenever every FDR
computation succeeds. -/
theorem qfold_spec (tda : TargetDecoyAnalyzer)
    (hF : ∀ t, ∃ q, fdrWithPercentIncorrectTargets tda t = some q) :
    ∀ (ts : List ℚ) (m : List (ℚ × ℚ)) (ls : Option ℚ) (lq : ℚ),
      List.Chain' (· < ·) (m.map Prod.fst ++ ts) →
      ls = m.getLast?.map Prod.fst →
      (m.getLast? = none → lq = 0) →
      (∀ c, m.getLast? = some c → lq = c.2) →
      VDesc m →
      ((ts.foldl (qValueStep tda) (ls, lq, m)).2.2.map Prod.fst
          = m.map Prod.fst ++ ts ∧
       VDesc (ts.foldl (qValueStep tda) (ls, lq, m)).2.2) := by
  intro ts
  induction ts with
  | nil =>
    intro m ls lq hchain hls hlq0 hlqs hvd
    rw [List.foldl_nil, List.append_nil]
    exact ⟨rfl, hvd⟩
  | cons t ts' ih =>
    intro m ls lq hchain hls hlq0 hlqs hvd
    obtain ⟨q, hq⟩ := hF t
    rw [List.foldl_cons, qValueStep_some hq]
    have hlast : (m ++ [(t, if lq < q ∧ ltInf ls t = true then lq else q)]).getLast?
        = some (t, if lq < q ∧ ltInf ls t = true then lq else q) := List.getLast?_concat m
    have hq'le : ∀ cl ∈ m.getLast?, (if lq < q ∧ ltInf ls t = true then lq else q) ≤ cl.2 := by
      intro cl hcl
      have hcleq : m.getLast? = some cl := hcl
      have hlqcl : lq = cl.2 := hlqs cl hcleq
      by_cases hcond : lq < q ∧ ltInf ls t = true
      · rw [if_pos hcond, hlqcl]
      · have hltInf : ltInf ls t = true := by
          rw [hls, hcleq]
          show ltInf (some cl.1) t = true
          unfold ltInf
          have hkey : cl.1 < t := by
            have hmem : cl.1 ∈ (m.map Prod.fst).getLast? := by
              rw [List.getLast?_map, hcleq]
              rfl
            exact chain'_getLast_lt hchain cl.1 hmem
          simpa using hkey
        have hnlt : ¬lq < q := fun hlt2 => hcond ⟨hlt2, hltInf⟩
        rw [if_neg hcond]
        rw [hlqcl] at hnlt
        linarith [not_lt.mp hnlt]
    have hvd' : VDesc (m ++ [(t, if lq < q ∧ ltInf ls t = true then lq else q)]) := by
      unfold VDesc
      rw [List.chain'_append]
      refine ⟨hvd, List.chain'_singleton _, ?_⟩
      intro x hx y hy
      have hy2 : some (t, if lq < q ∧ ltInf ls t = true then lq else q) = some y := hy
      rw [← Option.some_inj.mp hy2]
      exact hq'le x hx
    have hchain' : List.Chain' (· < ·)
        ((m ++ [(t, if lq < q ∧ ltInf ls t = true then lq else q)]).map Prod.fst ++ ts') := by
      rw [List.map_append]
      rw [List.append_assoc]
      exact hchain
    obtain ⟨ihmap, ihvd⟩ := ih (m ++ [(t, if lq < q ∧ ltInf ls t = true then lq else q)])
      (some t) (if lq < q ∧ ltInf ls t = true then lq else q)
      hchain'
      (by rw [hlast]; rfl)
      (by rw [hlast]; intro hcon; cases hcon)
      (by intro c hc; rw [hlast] at hc; rw [← Option.some_inj.mp hc])
      hvd'
    refine ⟨?_, ihvd⟩
    rw [ihmap, List.map_append, List.append_assoc]
    rfl

/-- The first component of `calculate_thresholds` is the sorted distinct
score union. -/
theorem calculateThresholds_fst (targets decoys : List Item) :
    (calculateThresholds targets decoys).1
      = sortDedup (targets.map (·.score) ++ decoys.map (·.score)) := by
  unfold calculateThresholds
  cases mkSTC targets (sortDedup (targets.map (·.score) ++ decoys.map (·.score))) with
  | none => rfl
  | some a =>
    cases mkSTC decoys (sortDedup (targets.map (·.score) ++ decoys.map (·.score))) with
    | none => rfl
    | some b => rfl

/-- Shape of the calibration curve when every FDR computation succeeds:
its cells are exactly one per threshold, in ascending threshold order,
with non-increasing values. -/
theorem calculateQValues_spec (tda : TargetDecoyAnalyzer)
    (hthr : List.Chain' (· < ·) tda.thresholds)
    (hF : ∀ t, ∃ q, fdrWithPercentIncorrectTargets tda t = some q) :
    (calculateQValues tda).items.map Prod.fst = tda.thresholds ∧
    SKey (calculateQValues tda).items ∧ VDesc (calculateQValues tda).items := by
  obtain ⟨hmap, hvd⟩ := qfold_spec tda hF tda.thresholds [] none 0
    (by simpa using hthr) rfl (fun _ => rfl) (fun c hc => by cases hc)
    (List.chain'_nil)
  have hskey : SKey (tda.thresholds.foldl (qValueStep tda) (none, 0, [])).2.2 := by
    unfold SKey
    rw [← List.chain'_map (f := (Prod.fst : ℚ × ℚ → ℚ))]
    rw [hmap]
    simpa using hthr
  have hitems : (calculateQValues tda).items
      = (tda.thresholds.foldl (qValueStep tda) (none, 0, [])).2.2 := by
    show sortCells (tda.thresholds.foldl (qValueStep tda) (none, 0, [])).2.2
        = (tda.thresholds.foldl (qValueStep tda) (none, 0, [])).2.2
    exact sortCells_eq_self hskey
  rw [hitems]
  refine ⟨by simpa using hmap, hskey, hvd⟩

/-- The values stored in the calibration curve are non-negative whenever
every computed FDR is. -/
theorem calculateQValues_nonneg (tda : TargetDecoyAnalyzer)
    (hFnn : ∀ t q, fdrWithPercentIncorrectTargets tda t = some q → 0 ≤ q) :
    ∀ c ∈ (calculateQValues tda).items, 0 ≤ c.2 := by
  intro c hc
  have hc' : c ∈ (tda.thresholds.foldl (qValueStep tda) (none, 0, [])).2.2 := by
    have : (calculateQValues tda).items
        = sortCells (tda.thresholds.foldl (qValueStep tda) (none, 0, [])).2.2 := rfl
    rw [this, mem_sortCells] at hc
    exact hc
  exact qfold_nonneg tda hFnn tda.thresholds none 0 []
    (fun d hd => by cases hd) (le_refl 0) c hc'

/-! ### Write-back and grouping lemmas -/

theorem score_inv {tda : TargetDecoyAnalyzer} {x y : Item}
    (h : tda.score x = some y) :
    ∃ q, tda.qValueMap.getItem x.score = some q ∧ y.qValue = q := by
  unfold TargetDecoyAnalyzer.score at h
  cases hg : tda.qValueMap.getItem x.score with
  | none => rw [hg] at h; cases h
  | some q =>
    rw [hg] at h
    refine ⟨q, rfl, ?_⟩
    have hxy : ({ x with qValue := q } : Item) = y := Option.some_inj.mp h
    rw [← hxy]

theorem scoreAll_mem (tda : TargetDecoyAnalyzer) :
    ∀ (l l' : List Item), scoreAll tda l = some l' →
      ∀ y ∈ l', ∃ x, x ∈ l ∧ tda.score x = some y := by
  intro l
  induction l with
  | nil =>
    intro l' h y hy
    have hl : ([] : List Item) = l' := Option.some_inj.mp h
    rw [← hl] at hy
    cases hy
  | cons a as ih =>
    intro l' h y hy
    simp only [scoreAll] at h
    cases hs : tda.score a with
    | none => rw [hs] at h; cases h
    | some a' =>
      rw [hs] at h
      cases hrest : scoreAll tda as with
      | none => rw [hrest] at h; cases h
      | some rest' =>
        rw [hrest] at h
        have hl : a' :: rest' = l' := Option.some_inj.mp h
        rw [← hl] at hy
        rcases List.mem_cons.mp hy with rfl | hy2
        · exact ⟨a, List.mem_cons_self a as, hs⟩
        · obtain ⟨x, hx, hsx⟩ := ih rest' hrest y hy2
          exact ⟨x, List.mem_cons_of_mem a hx, hsx⟩

theorem findGroup_lt {fns : List (Item → Bool)} {x : Item} {i : ℕ}
    (h : findGroup fns x = some i) : i < fns.length := by
  induction fns generalizing i with
  | nil => cases h
  | cons f rest ih =>
    unfold findGroup at h
    by_cases hf : f x
    · rw [if_pos hf] at h
      have hi : i = 0 := (Option.some_inj.mp h).symm
      rw [hi, List.length_cons]
      omega
    · rw [if_neg hf] at h
      cases hr : findGroup rest x with
      | none => rw [hr] at h; cases h
      | some j =>
        rw [hr] at h
        have hij : i = j + 1 := (Option.some_inj.mp h).symm
        have := ih hr
        rw [hij, List.length_cons]
        omega

theorem getD_set_self {α : Type} (l : List α) (j : ℕ) (a d : α) (h : j < l.length) :
    (l.set j a).getD j d = a := by
  induction l generalizing j with
  | nil => cases h
  | cons b bs ih =>
    cases j with
    | zero => rfl
    | succ j' =>
      have hj' : j' < bs.length := by
        rw [List.length_cons] at h
        omega
      exact ih j' hj'

theorem getD_set_other {α : Type} (l : List α) (i j : ℕ) (a d : α) (h : i ≠ j) :
    (l.set j a).getD i d = l.getD i d := by
  induction l generalizing i j with
  | nil => rfl
  | cons b bs ih =>
    cases j with
    | zero =>
      cases i with
      | zero => exact absurd rfl h
      | succ i' => rfl
    | succ j' =>
      cases i with
      | zero => rfl
      | succ i' => exact ih i' j' (fun he => h (by rw [he]))

theorem getD_replicate_default {α : Type} (n i : ℕ) (d : α) :
    (List.replicate n d).getD i d = d := by
  induction n generalizing i with
  | zero => rfl
  | succ m ih =>
    cases i with
    | zero => rfl
    | succ i' => exact ih i'

theorem zip_getD {α β : Type} :
    ∀ (l1 : List α) (l2 : List β) (i : ℕ) (d1 : α) (d2 : β), i < l1.length → i < l2.length →
      (l1.zip l2).getD i (d1, d2) = (l1.getD i d1, l2.getD i d2) := by
  intro l1
  induction l1 with
  | nil => intro l2 i d1 d2 h1 _; cases h1
  | cons a as ih =>
    intro l2 i d1 d2 h1 h2
    cases l2 with
    | nil => cases h2
    | cons b bs =>
      cases i with
      | zero => rfl
      | succ i' =>
        have h1' : i' < as.length := by rw [List.length_cons] at h1; omega
        have h2' : i' < bs.length := by rw [List.length_cons] at h2; omega
        exact ih bs i' d1 d2 h1' h2'

theorem getD_map {α β : Type} (f : α → β) :
    ∀ (l : List α) (i : ℕ) (d : α), i < l.length → (l.map f).getD i (f d) = f (l.getD i d) := by
  intro l
  induction l with
  | nil => intro i d h; cases h
  | cons a as ih =>
    intro i d h
    cases i with
    | zero => rfl
    | succ i' =>
      have h' : i' < as.length := by rw [List.length_cons] at h; omega
      exact ih i' d h'

theorem get?_eq_some_getD {α : Type} (l : List α) (i : ℕ) (d : α) (h : i < l.length) :
    l.get? i = some (l.getD i d) := by
  induction l generalizing i with
  | nil => cases h
  | cons a as ih =>
    cases i with
    | zero => rfl
    | succ i' =>
      have h' : i' < as.length := by rw [List.length_cons] at h; omega
      exact ih i' h'

theorem assignAll_length {fns : List (Item → Bool)} :
    ∀ (items : List Item) (buckets res : List (List Item)),
      assignAll fns items buckets = some res → res.length = buckets.length := by
  intro items
  induction items with
  | nil =>
    intro buckets res h
    have hb : buckets = res := Option.some_inj.mp h
    rw [hb]
  | cons x xs ih =>
    intro buckets res h
    simp only [assignAll] at h
    cases hg : findGroup fns x with
    | none => rw [hg] at h; cases h
    | some i =>
      rw [hg] at h
      have := ih _ _ h
      rw [this, List.length_set]

/-- Each bucket built by `partition` holds exactly the input items whose
first matching predicate is that bucket's, in input order. -/
theorem assignAll_spec {fns : List (Item → Bool)} :
    ∀ (items : List Item) (buckets res : List (List Item)),
      buckets.length = fns.length →
      assignAll fns items buckets = some res →
      ∀ i, i < fns.length →
        res.getD i [] = buckets.getD i []
          ++ items.filter (fun y => decide (findGroup fns y = some i)) := by
  intro items
  induction items with
  | nil =>
    intro buckets res hlen h i hi
    have hb : buckets = res := Option.some_inj.mp h
    rw [← hb, List.filter_nil, List.append_nil]
  | cons x xs ih =>
    intro buckets res hlen h i hi
    simp only [assignAll] at h
    cases hg : findGroup fns x with
    | none => rw [hg] at h; cases h
    | some j =>
      rw [hg] at h
      have hjlt : j < fns.length := findGroup_lt hg
      have hlen' : (buckets.set j (buckets.getD j [] ++ [x])).length = fns.length := by
        rw [List.length_set]
        exact hlen
      have hres := ih _ _ hlen' h i hi
      rw [hres]
      by_cases hij : i = j
      · subst hij
        rw [getD_set_self _ _ _ _ (by rw [hlen]; exact hjlt)]
        rw [List.filter_cons]
        have hdec : decide (findGroup fns x = some i) = true := by
          rw [hg]
          simp
        rw [hdec]
        simp only [if_true, List.append_assoc, List.singleton_append]
      · rw [getD_set_other _ _ _ _ _ hij]
        rw [List.filter_cons]
        have hdec : decide (findGroup fns x = some i) = false := by
          rw [hg]
          simp only [decide_eq_false_iff_not, Option.some_inj]
          omega
        rw [hdec]
        simp only [Bool.false_eq_true, if_false]

theorem mem_insertCellP {c d : PFloat × ℚ} {l : List (PFloat × ℚ)} :
    d ∈ insertCellP c l ↔ d = c ∨ d ∈ l := by
  induction l with
  | nil => simp [insertCellP]
  | cons e es ih =>
    by_cases hc : PFloat.lt c.1 e.1
    · simp only [insertCellP, if_pos hc, List.mem_cons] <;> tauto
    · simp only [insertCellP, if_neg hc, List.mem_cons, ih] <;> tauto

/-- `NearestValueLookUp.__init__` drops every NaN-scored cell. -/
theorem mkNVLUP_no_nan (l : List (PFloat × ℚ)) :
    ∀ c ∈ mkNVLUP l, c.1.isNaN = false := by
  suffices h : ∀ (src acc : List (PFloat × ℚ)),
      (∀ c ∈ acc, c.1.isNaN = false) → (∀ c ∈ src, c.1.isNaN = false) →
      ∀ c ∈ src.foldl (fun acc c => insertCellP c acc) acc, c.1.isNaN = false by
    intro c hc
    refine h (l.filter (fun c => !c.1.isNaN)) [] (fun d hd => by cases hd) ?_ c hc
    intro d hd
    have hfil := List.mem_filter.mp hd
    simpa using hfil.2
  intro src
  induction src with
  | nil => intro acc hacc _ c hc; exact hacc c hc
  | cons e es ih =>
    intro acc hacc hsrc c hc
    refine ih _ ?_ (fun d hd => hsrc d (List.mem_cons_of_mem e hd)) c hc
    intro d hd
    rcases mem_insertCellP.mp hd with rfl | hd2
    · exact hsrc d (List.mem_cons_self d es)
    · exact hacc d hd2

/-- A pointwise restatement of `target_decoy_ratio` after both lookups. -/
theorem targetDecoyRatio_eq {tda : TargetDecoyAnalyzer} {cutoff d v : ℚ}
    (hD : nDecoysAboveThreshold tda cutoff = some d)
    (hT : nTargetsAboveThreshold tda cutoff = some v) :
    targetDecoyRatio tda cutoff =
      some ((if v * tda.cfg.databaseRatio * tda.cfg.targetWeight = 0 then
               d + (if tda.cfg.decoyCorrection ≠ 0 then tda.cfg.corrF v d else 0)
             else (d + (if tda.cfg.decoyCorrection ≠ 0 then tda.cfg.corrF v d else 0))
               / (v * tda.cfg.databaseRatio * tda.cfg.targetWeight)), v, d) := by
  unfold targetDecoyRatio
  rw [hD, hT]

/-! ### Concrete fixtures used by the claim theorems -/

/-- A scored item with an untouched `q_value` slot. -/
def mkItem (s : ℚ) : Item := ⟨s, 0⟩

/-- Plain configuration: no PIT, no decoy correction, unit ratio and
weight (the negative-binomial model function is never consulted when
`decoyCorrection = 0`). -/
def cfgPlain : TDAConfig := ⟨false, 0, 1, 1, fun _ _ => 0⟩

/-- Same configuration with the percent-incorrect-targets multiplier on. -/
def cfgPit : TDAConfig := ⟨true, 0, 1, 1, fun _ _ => 0⟩

/-- The spec's concrete scenario: targets scored `[5,4,3]`, decoys scored
`[4,2]`, plain configuration. -/
def tdaC2 : TargetDecoyAnalyzer :=
  mkTDA [mkItem 5, mkItem 4, mkItem 3] [mkItem 4, mkItem 2] cfgPlain

/-! ### The claims -/

/-- C1, counterexample: with `with_pit=True`, targets scored `[1,2,4]`
and decoys scored `[3,3]` yield `q_value_of(1) = 1 < q_value_of(2) = 2`,
so the threshold-to-q-value curve is NOT non-increasing for every
configuration: the `ZeroDivisionError → 1.0` branch of
`_calculate_q_values` bypasses the smoothing state. -/
theorem C1_counterexample :
    qValueOf (mkTDA [mkItem 1, mkItem 2, mkItem 4] [mkItem 3, mkItem 3] cfgPit) 1
      = some 1 ∧
    qValueOf (mkTDA [mkItem 1, mkItem 2, mkItem 4] [mkItem 3, mkItem 3] cfgPit) 2
      = some 2 ∧
    (1 : ℚ) < 2 ∧ ¬((2 : ℚ) ≤ 1) := by
  refine ⟨by with_unfolding_all decide, by with_unfolding_all decide, by norm_num, by norm_num⟩

/-- C1, amended: with `with_pit=False` (and a non-negative decoy
correction configuration, positive database ratio and target weight),
`q_value_of` is non-increasing: for observed scores `s1 < s2`,
`q_value_of(s1) ≥ q_value_of(s2)`. -/
theorem C1_amended (cfg : TDAConfig) (hpit : cfg.withPit = false)
    (hc : 0 ≤ cfg.decoyCorrection)
    (hcz : cfg.decoyCorrection = 0 ∨ ∀ a b, 0 ≤ cfg.corrF a b)
    (hdb : 0 < cfg.databaseRatio) (hw : 0 < cfg.targetWeight)
    (targets decoys : List Item) {s1 s2 r1 r2 : ℚ} (h12 : s1 < s2)
    (h1 : qValueOf (mkTDA targets decoys cfg) s1 = some r1)
    (h2 : qValueOf (mkTDA targets decoys cfg) s2 = some r2) : r2 ≤ r1 := by
  have hcfg : (mkTDAbase targets decoys cfg).cfg = cfg := rfl
  have hthr : List.Chain' (· < ·) (mkTDAbase targets decoys cfg).thresholds := by
    have hfst : (mkTDAbase targets decoys cfg).thresholds
        = sortDedup (targets.map (·.score) ++ decoys.map (·.score)) :=
      calculateThresholds_fst targets decoys
    rw [hfst]
    exact chain_sortDedup _
  have hF : ∀ t, ∃ q, fdrWithPercentIncorrectTargets (mkTDAbase targets decoys cfg) t
      = some q :=
    fun t => fdr_total _ (by rw [hcfg]; exact hpit) t
  obtain ⟨hTtab, hDtab⟩ := mkTDAbase_tables targets decoys cfg
  have hFnn : ∀ t q,
      fdrWithPercentIncorrectTargets (mkTDAbase targets decoys cfg) t = some q → 0 ≤ q :=
    fun t q hq => fdr_nonneg _ hTtab hDtab (by rw [hcfg]; exact hc)
      (by rw [hcfg]; exact hcz) (Or.inl (by rw [hcfg]; exact hpit))
      (by rw [hcfg]; exact hdb) (by rw [hcfg]; exact hw) hq
  obtain ⟨hmap, hskey, hvd⟩ := calculateQValues_spec (mkTDAbase targets decoys cfg) hthr hF
  have hnn : ∀ c ∈ (calculateQValues (mkTDAbase targets decoys cfg)).items, 0 ≤ c.2 :=
    calculateQValues_nonneg _ hFnn
  have h1' : (calculateQValues (mkTDAbase targets decoys cfg)).getItem s1 = some r1 := h1
  have h2' : (calculateQValues (mkTDAbase targets decoys cfg)).getItem s2 = some r2 := h2
  exact getItem_antitone hskey hvd hnn (le_of_lt h12) h1' h2'

theorem C1_witness :
    qValueOf tdaC2 3 = some (1/2) ∧ qValueOf tdaC2 4 = some 0 ∧ (0 : ℚ) ≤ 1/2 := by
  have h1 : qValueOf (mkTDA [mkItem 5, mkItem 4, mkItem 3] [mkItem 4, mkItem 2] cfgPlain)
      3 = some (1/2) := by with_unfolding_all decide
  have h2 : qValueOf (mkTDA [mkItem 5, mkItem 4, mkItem 3] [mkItem 4, mkItem 2] cfgPlain)
      4 = some 0 := by with_unfolding_all decide
  exact ⟨h1, h2,
    C1_amended cfgPlain rfl (le_refl 0) (Or.inl rfl) (by decide) (by decide)
      [mkItem 5, mkItem 4, mkItem 3] [mkItem 4, mkItem 2] (by norm_num) h1 h2⟩

/-- C2, counterexample: in the spec's concrete scenario the estimator
computes `targets_above(4) = 1`, not `2`; the raw ratio at threshold 4 is
`1.0`, not `0.5`; and `q_value_of(4) = 0`, not `0.5` (the lookup of an
exact stored score returns the NEXT cell). -/
theorem C2_counterexample :
    nTargetsAboveThreshold tdaC2 4 = some 1 ∧
    ¬nTargetsAboveThreshold tdaC2 4 = some 2 ∧
    targetDecoyRatio tdaC2 4 = some (1, 1, 1) ∧
    qValueOf tdaC2 4 = some 0 ∧
    ¬qValueOf tdaC2 4 = some (1/2) := by
  with_unfolding_all decide

/-- C2, amended: the threshold set is `[2,3,4,5]`; at threshold 4 the
lookups give `targets_above = 1` and `decoys_above = 1` so the raw ratio
is `1.0` (smoothed to `0.5` inside the stored curve); at threshold 5 the
lookups give `targets_above = 1`, `decoys_above = 0`, ratio `0`; and
`q_value_of(5) = 0`, `q_value_of(4) = 0`. -/
theorem C2_amended :
    tdaC2.thresholds = [2, 3, 4, 5] ∧
    nTargetsAboveThreshold tdaC2 4 = some 1 ∧
    nDecoysAboveThreshold tdaC2 4 = some 1 ∧
    targetDecoyRatio tdaC2 4 = some (1, 1, 1) ∧
    tdaC2.qValueMap.items = [(2, 1/2), (3, 1/2), (4, 1/2), (5, 0)] ∧
    nTargetsAboveThreshold tdaC2 5 = some 1 ∧
    nDecoysAboveThreshold tdaC2 5 = some 0 ∧
    targetDecoyRatio tdaC2 5 = some (0, 1, 0) ∧
    qValueOf tdaC2 5 = some 0 ∧
    qValueOf tdaC2 4 = some 0 := by
  with_unfolding_all decide

/-- C3, counterexample: targets scored `[2]` against decoys scored
`[1,1]` give `q_value_of(0) = 2 ∉ [0,1]`: no upper clamp exists anywhere
in the pipeline. -/
theorem C3_counterexample :
    qValueOf (mkTDA [mkItem 2] [mkItem 1, mkItem 1] cfgPlain) 0 = some 2 ∧
    ¬((2 : ℚ) ≤ 1) :=
  ⟨by with_unfolding_all decide, by norm_num⟩

/-- C3, amended: with `decoy_correction = 0` (and positive database
ratio and target weight) every successful q-value lookup is
non-negative, and after `q_values()` every written `q_value` is
non-negative; the upper bound `1` does not hold. -/
theorem C3_amended (cfg : TDAConfig) (hc0 : cfg.decoyCorrection = 0)
    (hdb : 0 < cfg.databaseRatio) (hw : 0 < cfg.targetWeight)
    (targets decoys : List Item) :
    (∀ x r, qValueOf (mkTDA targets decoys cfg) x = some r → 0 ≤ r) ∧
    (∀ ts ds, qValues (mkTDA targets decoys cfg) = some (ts, ds) →
      ∀ it ∈ ts ++ ds, 0 ≤ it.qValue) := by
  have hcfg : (mkTDAbase targets decoys cfg).cfg = cfg := rfl
  obtain ⟨hTtab, hDtab⟩ := mkTDAbase_tables targets decoys cfg
  have hFnn : ∀ t q,
      fdrWithPercentIncorrectTargets (mkTDAbase targets decoys cfg) t = some q → 0 ≤ q :=
    fun t q hq => fdr_nonneg _ hTtab hDtab
      (by rw [hcfg, hc0]) (Or.inl (by rw [hcfg]; exact hc0))
      (Or.inr (by rw [hcfg]; exact hc0))
      (by rw [hcfg]; exact hdb) (by rw [hcfg]; exact hw) hq
  have hnn : ∀ c ∈ (calculateQValues (mkTDAbase targets decoys cfg)).items, 0 ≤ c.2 :=
    calculateQValues_nonneg _ hFnn
  have hpart1 : ∀ x r, qValueOf (mkTDA targets decoys cfg) x = some r → 0 ≤ r := by
    intro x r hr
    have hr' : (calculateQValues (mkTDAbase targets decoys cfg)).getItem x = some r := hr
    rcases getItem_mem hr' with h0 | hmem
    · rw [h0]
    · obtain ⟨c, hcm, hc2⟩ := List.mem_map.mp hmem
      rw [← hc2]
      exact hnn c hcm
  refine ⟨hpart1, ?_⟩
  intro ts ds hq it hit
  unfold qValues at hq
  cases hta : scoreAll (mkTDA targets decoys cfg) (mkTDA targets decoys cfg).targets with
  | none => rw [hta] at hq; cases hq
  | some ts' =>
    cases hda : scoreAll (mkTDA targets decoys cfg) (mkTDA targets decoys cfg).decoys with
    | none => rw [hta, hda] at hq; cases hq
    | some ds' =>
      rw [hta, hda] at hq
      have hpair : (ts', ds') = (ts, ds) := Option.some_inj.mp hq
      have hts : ts' = ts := congrArg Prod.fst hpair
      have hds : ds' = ds := congrArg Prod.snd hpair
      rcases List.mem_append.mp hit with h | h
      · obtain ⟨x, _, hsx⟩ := scoreAll_mem _ _ _ hta it (by rw [hts]; exact h)
        obtain ⟨q, hgq, hq2⟩ := score_inv hsx
        rw [hq2]
        exact hpart1 x.score q hgq
      · obtain ⟨x, _, hsx⟩ := scoreAll_mem _ _ _ hda it (by rw [hds]; exact h)
        obtain ⟨q, hgq, hq2⟩ := score_inv hsx
        rw [hq2]
        exact hpart1 x.score q hgq

theorem C3_witness :
    qValueOf tdaC2 4 = some 0 ∧ (0 : ℚ) ≤ 0 :=
  ⟨by with_unfolding_all decide,
   (C3_amended cfgPlain rfl (by decide) (by decide)
     [mkItem 5, mkItem 4, mkItem 3] [mkItem 4, mkItem 2]).1 4 0 (by with_unfolding_all decide)⟩

/-- C4, counterexample: looking up the stored score `2` in the table
`{1: 10, 2: 20, 3: 30}` returns `30` — the value of the NEXT stored
score — not `20`, the value associated with the smallest stored score
`≥` the query. -/
theorem C4_counterexample :
    (mkNVLU [(1, 10), (2, 20), (3, 30)]).getItem 2 = some 30 ∧ ((30 : ℚ) ≠ 20) :=
  ⟨by with_unfolding_all decide, by norm_num⟩

/-- C4, amended: on a table with strictly ascending stored scores the
lookup returns: the single entry's value (or `0` past it) for a
one-entry table; `0` for a query past the largest score; the last value
for a query equal to the largest score; the NEXT entry's value for a
query equal to any other stored score; the SECOND entry's value for a
query below the smallest score; and the upper neighbour's value for a
query strictly between two adjacent scores. -/
theorem C4_amended (t : NearestValueLookUp) (hs : SKey t.items) (k : ℚ) :
    (∀ c, t.items = [c] → t.getItem k = some (if c.1 < k then 0 else c.2)) ∧
    (2 ≤ t.items.length →
      ((cellGet t.items (t.items.length - 1)).1 < k → t.getItem k = some 0) ∧
      (k = (cellGet t.items (t.items.length - 1)).1 →
        t.getItem k = some ((cellGet t.items (t.items.length - 1)).2)) ∧
      (∀ i, i + 1 ≤ t.items.length - 1 → (cellGet t.items i).1 = k →
        t.getItem k = some ((cellGet t.items (i + 1)).2)) ∧
      (k < (cellGet t.items 0).1 → t.getItem k = some ((cellGet t.items 1).2)) ∧
      (∀ i, i + 1 ≤ t.items.length - 1 → (cellGet t.items i).1 < k →
        k < (cellGet t.items (i + 1)).1 →
        t.getItem k = some ((cellGet t.items (i + 1)).2))) := by
  constructor
  · intro c hc
    cases t with
    | mk items =>
      simp only [] at hc
      rw [hc]
      exact getItem_single
  · intro h2
    exact ⟨fun hk => getItem_top_lt hs h2 hk,
           fun hk => getItem_top_eq hs h2 hk,
           fun i hi hk => getItem_exact_mid hs h2 hi hk,
           fun hk => getItem_below hs h2 hk,
           fun i hi hl hh => getItem_between hs h2 hi hl hh⟩

theorem C4_witness :
    (mkNVLU [(1, 10), (2, 20), (3, 30)]).getItem (5/2) = some 30 := by
  have hsk : SKey (mkNVLU [(1, 10), (2, 20), (3, 30)]).items := by
    have hit : (mkNVLU [(1, 10), (2, 20), (3, 30)]).items
        = [(1, 10), (2, 20), (3, 30)] := by with_unfolding_all decide
    unfold SKey
    rw [hit]
    simp only [List.chain'_cons, List.chain'_singleton, and_true]
    norm_num
  exact ((C4_amended (mkNVLU [(1, 10), (2, 20), (3, 30)]) hsk (5/2)).2
      (by with_unfolding_all decide)).2.2.2.2 1 (by with_unfolding_all decide)
    (by with_unfolding_all decide) (by with_unfolding_all decide)

/-- C5, counterexample: items scored `[2,4]` against thresholds
`[2,3,4,5]` record below-counts only for thresholds 3 and 4 (2 and 5 get
no entry), and the count recorded for threshold 3 is `0` although one
item (score 2) lies strictly below 3. -/
theorem C5_counterexample :
    (mkSTC [mkItem 2, mkItem 4] [2, 3, 4, 5]).map ScoreThresholdCounter.counterEntries
      = some [(3, 0), (4, 1)] ∧
    ([mkItem 2, mkItem 4].filter (fun it => decide (it.score < 3))).length = 1 ∧
    (0 : ℕ) ≠ 1 := by
  refine ⟨by with_unfolding_all decide, by with_unfolding_all decide, by norm_num⟩

/-- C5, amended: for the thresholds that DO get a recorded below-count,
the `counts_above_threshold` table holds exactly the complements: a cell
`(t, w)` is stored there iff the scan recorded `(t, v)` with
`w = len(series) - v`. -/
theorem C5_amended {series : List Item} {thresholds : List ℚ}
    {stc : ScoreThresholdCounter} (h : mkSTC series thresholds = some stc) (k w : ℚ) :
    ((k, w) ∈ stc.countsAboveThreshold.items ↔
      ∃ v : ℕ, (k, v) ∈ stc.counterEntries ∧ w = (series.length : ℚ) - v) := by
  simp only [mkSTC] at h
  split at h
  · cases h
  · rename_i t0 rest hthr
    injection h with h
    have hitems : stc.countsAboveThreshold.items
        = sortCells (stc.counterEntries.map
            (fun p => (p.1, (series.length : ℚ) - (p.2 : ℚ)))) := by
      rw [← h]
      rfl
    rw [hitems, mem_sortCells]
    constructor
    · intro hmem
      obtain ⟨p, hp, hpe⟩ := List.mem_map.mp hmem
      have hfst : p.1 = k := congrArg Prod.fst hpe
      have hsnd : (series.length : ℚ) - (p.2 : ℚ) = w := congrArg Prod.snd hpe
      refine ⟨p.2, ?_, hsnd.symm⟩
      have hpk : (k, p.2) = p := by
        rw [← hfst]
      rw [hpk]
      exact hp
    · rintro ⟨v, hv, hw⟩
      refine List.mem_map.mpr ⟨(k, v), hv, ?_⟩
      rw [hw]

theorem C5_witness :
    (((3 : ℚ), (2 : ℚ)) ∈
        ((mkSTC [mkItem 2, mkItem 4] [2, 3, 4, 5]).get (by with_unfolding_all decide)).countsAboveThreshold.items
      ↔ ∃ v : ℕ,
        ((3 : ℚ), v) ∈ ((mkSTC [mkItem 2, mkItem 4] [2, 3, 4, 5]).get
          (by with_unfolding_all decide)).counterEntries ∧
        (2 : ℚ) = (([mkItem 2, mkItem 4] : List Item).length : ℚ) - v) :=
  C5_amended (Option.some_get (by with_unfolding_all decide)).symm 3 2

/-- C6, counterexample: indexing an empty `NearestValueLookUp` raises
(`none`), it does not return the default `0`; consequently `score` and
`q_value_of` on an estimator built from two empty populations raise as
well. -/
theorem C6_counterexample :
    NearestValueLookUp.getItem ⟨[]⟩ 5 = none ∧
    (mkTDA [] [] cfgPlain).score (mkItem 3) = none ∧
    qValueOf (mkTDA [] [] cfgPlain) 1 = none ∧
    (none : Option ℚ) ≠ some 0 :=
  ⟨rfl, rfl, rfl, by simp⟩

/-- C6, amended: looking up any query in an empty table raises
`IndexError` (modelled by `none`), and for an estimator constructed from
two empty populations every q-value lookup — `q_value_of` and `score` on
any score — raises rather than returning `0`. -/
theorem C6_amended (t : NearestValueLookUp) (ht : t.items = []) (k : ℚ)
    (cfg : TDAConfig) (x : Item) (s : ℚ) :
    t.getItem k = none ∧
    (mkTDA [] [] cfg).score x = none ∧
    qValueOf (mkTDA [] [] cfg) s = none := by
  have hmap : (mkTDA [] [] cfg).qValueMap.items = [] := rfl
  refine ⟨getItem_empty ht, ?_, ?_⟩
  · unfold TargetDecoyAnalyzer.score
    rw [getItem_empty hmap]
    rfl
  · unfold qValueOf
    exact getItem_empty hmap

theorem C6_witness :
    NearestValueLookUp.getItem ⟨[]⟩ 5 = none ∧
    (mkTDA [] [] cfgPlain).score (mkItem 3) = none ∧
    qValueOf (mkTDA [] [] cfgPlain) 1 = none :=
  C6_amended ⟨[]⟩ rfl 5 cfgPlain (mkItem 3) 1

/-- C7, counterexample: `calculate_thresholds` performs no NaN
filtering, so a NaN score lands in the threshold set: with a NaN-scored
target the threshold list is exactly `[NaN]`, and with mixed scores NaN
is a member of the threshold list. -/
theorem C7_counterexample :
    calculateThresholdsP [.nan] [] = [.nan] ∧
    PFloat.nan ∈ calculateThresholdsP [.nan, .val 1] [.val 2] ∧
    PFloat.nan.isNaN = true :=
  ⟨rfl, by decide, rfl⟩

/-- C7, amended: NaN scores ARE kept by `calculate_thresholds` (they can
appear in the estimator's threshold set), while `NearestValueLookUp`
construction does drop every NaN-keyed cell, so NaN never appears in a
`ScoreIndex`. -/
theorem C7_amended :
    PFloat.nan ∈ calculateThresholdsP [.nan, .val 1] [.val 2] ∧
    ∀ (l : List (PFloat × ℚ)) (c : PFloat × ℚ), c ∈ mkNVLUP l → c.1.isNaN = false :=
  ⟨by decide, fun l c hc => mkNVLUP_no_nan l c hc⟩

theorem C7_witness :
    PFloat.nan ∈ calculateThresholdsP [.nan, .val 1] [.val 2] ∧
    (PFloat.val 3, (7 : ℚ)).1.isNaN = false :=
  ⟨C7_amended.1, C7_amended.2 [(.nan, 5), (.val 3, 7)] (.val 3, 7) (by decide)⟩

/-- C8: whenever the target lookup yields `targets_at = 0`, the
`ZeroDivisionError` fallback returns the raw numerator
`decoys_at + correction` as the ratio (with the negative-binomial
correction included exactly when `decoy_correction` is non-zero),
instead of failing. -/
theorem C8_theorem (tda : TargetDecoyAnalyzer) (cutoff d : ℚ)
    (hD : nDecoysAboveThreshold tda cutoff = some d)
    (hT : nTargetsAboveThreshold tda cutoff = some 0) :
    targetDecoyRatio tda cutoff =
      some (d + (if tda.cfg.decoyCorrection ≠ 0 then tda.cfg.corrF 0 d else 0), 0, d) := by
  rw [targetDecoyRatio_eq hD hT, zero_mul, zero_mul, if_pos rfl]

theorem C8_witness :
    targetDecoyRatio (mkTDA [] [mkItem 1] cfgPlain) 1 = some (0, 0, 0) := by
  have h := C8_theorem (mkTDA [] [mkItem 1] cfgPlain) 1 0
    (by with_unfolding_all decide) (by with_unfolding_all decide)
  simpa [cfgPlain] using h

/-- Dispatch unfolding for `GroupwiseTargetDecoyAnalyzer.score`: with the
first matching group known and its fitted estimator looked up, scoring
delegates to that estimator. -/
theorem GTDA_score_unfold (g : GroupwiseTargetDecoyAnalyzer) (x : Item) {i : ℕ}
    (hf : findGroup g.groupingFunctions x = some i) {fit : TargetDecoyAnalyzer}
    (hfit : g.groupFits.get? i = some fit) :
    g.score x = fit.score x := by
  unfold GroupwiseTargetDecoyAnalyzer.score
  rw [hf]
  show (match g.groupFits.get? i with
        | some f => f.score x
        | none => none) = fit.score x
  rw [hfit]

/-- C9: for every constructed grouped estimator and every item matching
at least one grouping predicate, scoring through the grouped estimator
equals scoring through the single `TargetDecoyAnalyzer` fitted on
exactly the target/decoy items whose first matching predicate is the
item's (first-match-wins dispatch). -/
theorem C9_theorem (targets decoys : List Item) (cfg : TDAConfig)
    (fns : List (Item → Bool)) (g : GroupwiseTargetDecoyAnalyzer)
    (hg : mkGTDA targets decoys cfg (some fns) = some g)
    (x : Item) (i : ℕ) (hfind : findGroup fns x = some i) :
    g.score x =
      (mkTDA (targets.filter (fun y => decide (findGroup fns y = some i)))
             (decoys.filter (fun y => decide (findGroup fns y = some i))) cfg).score x := by
  have hilt : i < fns.length := findGroup_lt hfind
  simp only [mkGTDA, Option.getD_some] at hg
  cases hA : assignAll fns targets (List.replicate fns.length []) with
  | none => rw [hA] at hg; cases hg
  | some tb =>
    cases hB : assignAll fns decoys (List.replicate fns.length []) with
    | none => rw [hA, hB] at hg; cases hg
    | some db =>
      rw [hA, hB] at hg
      have hg2 : some ({ groupingFunctions := fns,
                         groups := tb.zip db,
                         groupFits := (tb.zip db).map (fun p => mkTDA p.1 p.2 cfg),
                         cfg := cfg } : GroupwiseTargetDecoyAnalyzer)
          = some g := hg
      have hgg := Option.some_inj.mp hg2
      subst hgg
      have htb : tb.length = fns.length := by
        have h1 := assignAll_length targets (List.replicate fns.length []) tb hA
        rw [h1, List.length_replicate]
      have hdb : db.length = fns.length := by
        have h1 := assignAll_length decoys (List.replicate fns.length []) db hB
        rw [h1, List.length_replicate]
      have hzl : i < (tb.zip db).length := by
        rw [List.length_zip, htb, hdb, min_self]
        exact hilt
      have hzi : (tb.zip db).getD i ([], []) =
          (targets.filter (fun y => decide (findGroup fns y = some i)),
           decoys.filter (fun y => decide (findGroup fns y = some i))) := by
        rw [zip_getD tb db i [] [] (by rw [htb]; exact hilt) (by rw [hdb]; exact hilt)]
        rw [assignAll_spec targets (List.replicate fns.length []) tb
            (by rw [List.length_replicate]) hA i hilt]
        rw [assignAll_spec decoys (List.replicate fns.length []) db
            (by rw [List.length_replicate]) hB i hilt]
        rw [getD_replicate_default]
        simp only [List.nil_append]
      have hget : ((tb.zip db).map (fun p => mkTDA p.1 p.2 cfg)).get? i
          = some (mkTDA (targets.filter (fun y => decide (findGroup fns y = some i)))
                        (decoys.filter (fun y => decide (findGroup fns y = some i))) cfg) := by
        rw [List.get?_map, get?_eq_some_getD (tb.zip db) i ([], []) hzl, hzi]
        rfl
      exact GTDA_score_unfold _ x hfind hget

/-- A concrete grouped estimator: one always-true predicate, one target
scored `1`, one decoy scored `2`. -/
def gtdaW : GroupwiseTargetDecoyAnalyzer :=
  (mkGTDA [mkItem 1] [mkItem 2] cfgPlain (some [fun _ => true])).getD
    ⟨[fun _ => true], [], [], cfgPlain⟩

theorem C9_witness :
    gtdaW.score (mkItem 1)
      = (mkTDA ([mkItem 1].filter (fun y => decide (findGroup [fun _ => true] y = some 0)))
               ([mkItem 2].filter (fun y => decide (findGroup [fun _ => true] y = some 0)))
               cfgPlain).score (mkItem 1) :=
  C9_theorem [mkItem 1] [mkItem 2] cfgPlain [fun _ => true] gtdaW rfl (mkItem 1) 0 rfl

/-- C10: construction never touches any input item: a constructed
`TargetDecoyAnalyzer` stores the input target and decoy lists exactly as
given (each item, `q_value` field included, is the input value), and
every group bucket of a constructed `GroupwiseTargetDecoyAnalyzer` holds
only items of the corresponding input population. -/
theorem C10_theorem (targets decoys : List Item) (cfg : TDAConfig) :
    ((mkTDA targets decoys cfg).targets = targets ∧
     (mkTDA targets decoys cfg).decoys = decoys) ∧
    ∀ (fns : List (Item → Bool)) (g : GroupwiseTargetDecoyAnalyzer),
      mkGTDA targets decoys cfg (some fns) = some g →
      ∀ p ∈ g.groups, (∀ it ∈ p.1, it ∈ targets) ∧ (∀ it ∈ p.2, it ∈ decoys) := by
  refine ⟨⟨rfl, rfl⟩, ?_⟩
  intro fns g hg p hp
  simp only [mkGTDA, Option.getD_some] at hg
  cases hA : assignAll fns targets (List.replicate fns.length []) with
  | none => rw [hA] at hg; cases hg
  | some tb =>
    cases hB : assignAll fns decoys (List.replicate fns.length []) with
    | none => rw [hA, hB] at hg; cases hg
    | some db =>
      rw [hA, hB] at hg
      have hg2 : some ({ groupingFunctions := fns,
                         groups := tb.zip db,
                         groupFits := (tb.zip db).map (fun q => mkTDA q.1 q.2 cfg),
                         cfg := cfg } : GroupwiseTargetDecoyAnalyzer)
          = some g := hg
      have hgg := Option.some_inj.mp hg2
      subst hgg
      have htb : tb.length = fns.length := by
        have h1 := assignAll_length targets (List.replicate fns.length []) tb hA
        rw [h1, List.length_replicate]
      have hdb : db.length = fns.length := by
        have h1 := assignAll_length decoys (List.replicate fns.length []) db hB
        rw [h1, List.length_replicate]
      have hp2 : p ∈ tb.zip db := hp
      obtain ⟨h1tb, h2db⟩ := List.mem_zip hp2
      constructor
      · intro it hit
        obtain ⟨n, hn⟩ := List.mem_iff_get?.mp h1tb
        obtain ⟨hnlt, _⟩ := List.get?_eq_some.mp hn
        have hnd : tb.getD n [] = p.1 := by
          have := get?_eq_some_getD tb n [] hnlt
          rw [this] at hn
          exact Option.some_inj.mp hn
        have hspec := assignAll_spec targets (List.replicate fns.length []) tb
          (by rw [List.length_replicate]) hA n (by rw [← htb]; exact hnlt)
        rw [getD_replicate_default, List.nil_append] at hspec
        rw [hnd] at hspec
        rw [hspec] at hit
        exact (List.mem_filter.mp hit).1
      · intro it hit
        obtain ⟨n, hn⟩ := List.mem_iff_get?.mp h2db
        obtain ⟨hnlt, _⟩ := List.get?_eq_some.mp hn
        have hnd : db.getD n [] = p.2 := by
          have := get?_eq_some_getD db n [] hnlt
          rw [this] at hn
          exact Option.some_inj.mp hn
        have hspec := assignAll_spec decoys (List.replicate fns.length []) db
          (by rw [List.length_replicate]) hB n (by rw [← hdb]; exact hnlt)
        rw [getD_replicate_default, List.nil_append] at hspec
        rw [hnd] at hspec
        rw [hspec] at hit
        exact (List.mem_filter.mp hit).1

/-- A second concrete grouped estimator, for exercising C10. -/
def gtdaW10 : GroupwiseTargetDecoyAnalyzer :=
  (mkGTDA [mkItem 3] [mkItem 4] cfgPlain (some [fun _ => true])).getD
    ⟨[fun _ => true], [], [], cfgPlain⟩

theorem C10_witness :
    ((mkTDA [mkItem 3] [mkItem 4] cfgPlain).targets = [mkItem 3] ∧
     (mkTDA [mkItem 3] [mkItem 4] cfgPlain).decoys = [mkItem 4]) ∧
    ((∀ it ∈ ([mkItem 3] : List Item), it ∈ [mkItem 3]) ∧
     (∀ it ∈ ([mkItem 4] : List Item), it ∈ [mkItem 4])) :=
  ⟨(C10_theorem [mkItem 3] [mkItem 4] cfgPlain).1,
   (C10_theorem [mkItem 3] [mkItem 4] cfgPlain).2 [fun _ => true] gtdaW10 rfl
     ([mkItem 3], [mkItem 4]) (by with_unfolding_all decide)⟩

end TargetDecoy
